import Mathlib

/-! List trees

A verification development for `list-trees.cpp`: a binary search tree whose
nodes are sorted singly linked lists of integers.

Embedding:

* C++ `int` values are read as exact integers (`Int`); signed overflow is
  undefined behaviour in the source and is outside the model.
* A `LinkedList` object is modelled by its two cached fields `size` and
  `sum`, by the values of the nodes linked from `head` (`chain`, empty exactly
  when `head` is `NULL`) and by the position in that chain of the node `tail`
  points to (`tail`, `none` exactly when `tail` is `NULL`).
* The `left` / `right` pointers of a `LinkedList` are modelled by the
  inductive type `Tree`: `Tree.null` is the `NULL` pointer, and
  `Tree.node list left right` is a list object together with the two
  subtrees its child pointers lead to.
* Code that reads through a `NULL` pointer returns `Except.error`.
* What `printTreeContents` writes to `std::cout` is modelled as the list of its
  lines (`Line`), each with the length of its indentation.
-/

namespace ListTrees

deriving instance DecidableEq for Except

/-- Ways in which a run leaves the model. -/
inductive Fault where
  /-- `head` is `NULL` where the code reads through it. -/
  | nullHead
  /-- `tail` is `NULL` where the code reads through it. -/
  | nullTail
  /-- `tail` points to a node that is not linked from `head`. -/
  | tailOffChain
  /-- `BinaryTree::add` issued more than one recursive call for one list,
  which would link the same object at several places. -/
  | linkedTwice
  deriving DecidableEq, Repr

/-- The class `LinkedList` without its child pointers (those live in `Tree`). -/
structure LinkedList where
  /-- Field `size`. -/
  size : Int
  /-- Field `sum`. -/
  sum : Int
  /-- Values of the nodes reachable from `head`, in link order. -/
  chain : List Int
  /-- Position in `chain` of the node `tail` points to. -/
  tail : Option Nat
  deriving DecidableEq, Repr

namespace LinkedList

/-- The default constructor `LinkedList()`. -/
def new : LinkedList :=
  { size := 0, sum := 0, chain := [], tail := none }

/-- The constructor `LinkedList(int value)`. -/
def newWith (value : Int) : LinkedList :=
  { size := 1, sum := value, chain := [value], tail := some 0 }

/-- `getSize()`. -/
def getSize (l : LinkedList) : Int := l.size

/-- `getSum()`. -/
def getSum (l : LinkedList) : Int := l.sum

/-- `getTerminalNode(isHead)`: the head or the tail node, given by the value it
stores; `none` is the `NULL` pointer. -/
def getTerminalNode (l : LinkedList) (isHead : Bool) : Option Int :=
  if isHead then l.chain.head? else l.tail.bind (fun t => l.chain[t]?)

/-- The `while` loop of `LinkedList::add`. The first argument after `value` is
the value of `lastNode`, the list holds the values from `currentNode` on.
On success the result is the number of times the two pointers were advanced
and the new chain hanging off the initial `lastNode`; `none` means
`currentNode` reached `NULL` and the new node was not linked. -/
def spliceLoop (value : Int) : Int → List Int → Option (Nat × List Int)
  | _, [] => none
  | lastNode, currentNode :: rest =>
    if lastNode ≤ value ∧ currentNode ≥ value then
      some (0, value :: currentNode :: rest)
    else
      match spliceLoop value currentNode rest with
      | none => none
      | some (k, newRest) => some (k + 1, currentNode :: newRest)

/-- `LinkedList::add(int value)`. -/
def add (l : LinkedList) (value : Int) : Except Fault LinkedList :=
  match l.chain with
  | [] => .error .nullHead
  | headValue :: afterHead =>
    let sum := l.sum + value
    let size := l.size + 1
    if value ≤ headValue then
      .ok { size := size, sum := sum, chain := value :: headValue :: afterHead,
            tail := l.tail.map (· + 1) }
    else
      match l.tail with
      | none => .error .nullTail
      | some t =>
        match (headValue :: afterHead)[t]? with
        | none => .error .tailOffChain
        | some tailValue =>
          if value ≥ tailValue then
            .ok { size := size, sum := sum,
                  chain := (headValue :: afterHead).take (t + 1) ++ [value],
                  tail := some (t + 1) }
          else
            match spliceLoop value headValue afterHead with
            | none =>
              .ok { size := size, sum := sum, chain := headValue :: afterHead, tail := some t }
            | some (k, newRest) =>
              .ok { size := size, sum := sum, chain := headValue :: newRest,
                    tail := some (if k + 1 ≤ t then t + 1 else t) }

/-- Repeated `add`, as in the `for (int x : inputVector)` loop of `main`. -/
def addAll (l : LinkedList) : List Int → Except Fault LinkedList
  | [] => .ok l
  | x :: xs =>
    match l.add x with
    | .error e => .error e
    | .ok l' => addAll l' xs

/-- The list `main` builds from one input line: seeded with the first
integer, the others added in order. An empty line makes `main` read
`inputVector[0]` of an empty vector, which is outside the model. -/
def ofInput : List Int → Option (Except Fault LinkedList)
  | [] => none
  | first :: others => some ((newWith first).addAll others)

/-- What `LinkedList(int)` establishes and `add` keeps: the chain is not empty
and ascending, `tail` is its last node, and the cached fields are exact. -/
structure Built (l : LinkedList) : Prop where
  nonempty : l.chain ≠ []
  sorted : l.chain.Sorted (· ≤ ·)
  tail_last : l.tail = some (l.chain.length - 1)
  size_eq : l.size = l.chain.length
  sum_eq : l.sum = l.chain.sum

end LinkedList

/-- A `LinkedList*` seen as a tree: `null` is `NULL`, `node list left right` is
a list object with the subtrees its `left` and `right` pointers lead to. -/
inductive Tree where
  | null : Tree
  | node (list : LinkedList) (left right : Tree) : Tree
  deriving DecidableEq, Repr

namespace Tree

/-- `getChild(isRightChild)`. -/
def getChild : Tree → Bool → Tree
  | null, _ => null
  | node _ left right, isRightChild => if isRightChild then right else left

/-- `setChild(isRightChild, child)`. -/
def setChild : Tree → Bool → Tree → Tree
  | null, _, _ => null
  | node list left right, isRightChild, child =>
    if isRightChild then node list left child else node list child right

/-- Number of list objects in the tree. -/
def numNodes : Tree → Nat
  | null => 0
  | node _ left right => 1 + left.numNodes + right.numNodes

/-- The list objects of the tree, node first, then left, then right. -/
def lists : Tree → List LinkedList
  | null => []
  | node list left right => list :: (left.lists ++ right.lists)

end Tree

/-- The class `BinaryTree`: its only field is `root`. -/
structure BinaryTree where
  root : Tree
  deriving DecidableEq, Repr

namespace BinaryTree

/-- The constructor `BinaryTree()`. -/
def new : BinaryTree := { root := Tree.null }

/-- The `for` loop of the third branch of `BinaryTree::add`. `currentValue`
and `listValue` are the two node pointers read by the loop (neither is
advanced), the natural number is the number of iterations left, and the state
is the recursive calls issued so far (`true` for the right child) with the
flag `noDifferenceFound`. -/
def compareLoop (currentValue listValue : Option Int) :
    Nat → List Bool × Bool → Except Fault (List Bool × Bool)
  | 0, state => .ok state
  | n + 1, (calls, _) =>
    match currentValue, listValue with
    | some c, some v =>
      if c < v then compareLoop currentValue listValue n (calls ++ [true], false)
      else if c > v then compareLoop currentValue listValue n (calls ++ [false], false)
      else compareLoop currentValue listValue n (calls, true)
    | _, _ => .error .nullHead

/-- The recursive calls the third branch of `BinaryTree::add` issues at
`currentNode`, in order: those of the loop, then the one guarded by
`noDifferenceFound`. Both `currentValue` and `listValue` are initialised from
`currentNode->getTerminalNode(true)`. -/
def tieCalls (currentNode : LinkedList) : Except Fault (List Bool) :=
  let currentValue := currentNode.getTerminalNode true
  let listValue := currentNode.getTerminalNode true
  match compareLoop currentValue listValue currentNode.getSize.toNat ([], false) with
  | .error e => .error e
  | .ok (calls, noDifferenceFound) => .ok (if noDifferenceFound then calls ++ [true] else calls)

/-- `BinaryTree::add(previous, currentNode, list, wentRight)` once `root` is
not `NULL`. The argument is the subtree at `currentNode`; the result is the
subtree that stands in its place afterwards (for `currentNode == NULL` the new
leaf that `previous->setChild(wentRight, list)` installs). -/
def addAt : Tree → LinkedList → Except Fault Tree
  | .null, list => .ok (.node list .null .null)
  | .node currentNode left right, list =>
    if currentNode.getSize ≠ list.getSize then
      if currentNode.getSize ≤ list.getSize then
        (addAt right list).map (fun r => .node currentNode left r)
      else
        (addAt left list).map (fun l => .node currentNode l right)
    else if currentNode.getSum ≠ list.getSum then
      if currentNode.getSum ≤ list.getSum then
        (addAt right list).map (fun r => .node currentNode left r)
      else
        (addAt left list).map (fun l => .node currentNode l right)
    else
      match tieCalls currentNode with
      | .error e => .error e
      | .ok [] => .ok (.node currentNode left right)
      | .ok [true] => (addAt right list).map (fun r => .node currentNode left r)
      | .ok [false] => (addAt left list).map (fun l => .node currentNode l right)
      | .ok _ => .error .linkedTwice

/-- `tree->add(root, root, list, false)`: the call `main` makes. -/
def add (tree : BinaryTree) (list : LinkedList) : Except Fault BinaryTree :=
  match tree.root with
  | .null => .ok { root := .node list .null .null }
  | root => (addAt root list).map (fun r => { root := r })

/-- Insert the lists one after the other. -/
def addAll (tree : BinaryTree) : List LinkedList → Except Fault BinaryTree
  | [] => .ok tree
  | list :: rest =>
    match tree.add list with
    | .error e => .error e
    | .ok tree' => addAll tree' rest

end BinaryTree


/-! ## The ordering the specification asks for -/

/-- Element-wise comparison of two sequences from the front: the first index
where they differ decides. -/
def specLex : List Int → List Int → Ordering
  | [], [] => .eq
  | [], _ :: _ => .lt
  | _ :: _, [] => .gt
  | a :: as, b :: bs =>
    if a < b then .lt else if a > b then .gt else specLex as bs

/-- The composite comparator of the specification: count, then total, then
the elements. -/
def specCompare (a b : LinkedList) : Ordering :=
  if a.size ≠ b.size then
    if a.size < b.size then .lt else .gt
  else if a.sum ≠ b.sum then
    if a.sum < b.sum then .lt else .gt
  else specLex a.chain b.chain

/-- The tree-shape invariant for a comparator: at every node, every list of the
left subtree compares less than the node and no list of the right subtree
does. -/
def Tree.Ordered (cmp : LinkedList → LinkedList → Ordering) : Tree → Prop
  | .null => True
  | .node list left right =>
    (∀ x ∈ left.lists, cmp x list = .lt) ∧ (∀ x ∈ right.lists, cmp x list ≠ .lt) ∧
      left.Ordered cmp ∧ right.Ordered cmp

instance Tree.decidableOrdered (cmp : LinkedList → LinkedList → Ordering) :
    (t : Tree) → Decidable (t.Ordered cmp)
  | .null => isTrue trivial
  | .node list left right =>
    have := Tree.decidableOrdered cmp left
    have := Tree.decidableOrdered cmp right
    by unfold Tree.Ordered; exact inferInstance

/-- The comparison `BinaryTree::add` makes before its third branch: count,
then total. -/
def keyCompare (a b : LinkedList) : Ordering :=
  if a.size ≠ b.size then
    if a.size < b.size then .lt else .gt
  else if a.sum ≠ b.sum then
    if a.sum < b.sum then .lt else .gt
  else .eq

/-! ## Positions in the tree -/

namespace Tree

/-- The subtree reached from the root by a path of child steps (`true` is a
step to the right child); `none` when the path leaves the tree. -/
def subtreeAt : Tree → List Bool → Option Tree
  | t, [] => some t
  | null, _ :: _ => none
  | node _ left right, isRightChild :: path =>
    if isRightChild then right.subtreeAt path else left.subtreeAt path

/-- The tree with the subtree at a path replaced. -/
def graft : Tree → List Bool → Tree → Tree
  | _, [], new => new
  | null, _ :: _, _ => null
  | node list left right, isRightChild :: path, new =>
    if isRightChild then node list left (right.graft path new)
    else node list (left.graft path new) right

/-- The nodes in the order node, left, right, each with its distance from the
root of the walk plus `depth`. -/
def preorder : Tree → Nat → List (Nat × LinkedList)
  | null, _ => []
  | node list left right, depth =>
    (depth, list) :: (left.preorder (depth + 1) ++ right.preorder (depth + 1))

end Tree

/-! ## Printing -/

/-- `LinkedList::printListContents()`: the values written, head to tail (each
is followed by one blank). -/
def LinkedList.printListContents (l : LinkedList) : List Int := l.chain

/-- One line written by `printTreeContents`; `spacing` is the length of the
string `spacing`. -/
inductive Line where
  /-- The line `spacing`, ` No child.` -/
  | noChild (spacing : Nat)
  /-- The line `spacing`, `Level `, `level`, `: `, the values of the list. -/
  | entry (spacing : Nat) (level : Int) (values : List Int)
  /-- The line `spacing`, ` Left children:` -/
  | leftChildren (spacing : Nat)
  /-- The line `spacing`, ` Right children:` -/
  | rightChildren (spacing : Nat)
  deriving DecidableEq, Repr

namespace Line

/-- The text of a line. -/
def render : Line → String
  | noChild spacing => String.mk (List.replicate spacing ' ') ++ " No child.\n"
  | entry spacing level values =>
    String.mk (List.replicate spacing ' ') ++ "Level " ++ toString level ++ ": " ++
      String.join (values.map (fun v => toString v ++ " ")) ++ "\n"
  | leftChildren spacing => String.mk (List.replicate spacing ' ') ++ " Left children:\n"
  | rightChildren spacing => String.mk (List.replicate spacing ' ') ++ " Right children:\n"

/-- The two caption lines a node writes in front of its children. -/
def isCaption : Line → Bool
  | leftChildren _ => true
  | rightChildren _ => true
  | _ => false

/-- The `No child` lines. -/
def isNoChild : Line → Bool
  | noChild _ => true
  | _ => false

/-- The level and the values of a node line. -/
def entry? : Line → Option (Int × List Int)
  | entry _ level values => some (level, values)
  | _ => none

end Line

/-- `BinaryTree::printTreeContents(current, level, spaces)`: the lines written
to `std::cout`, in order. -/
def BinaryTree.printTreeContents : Tree → Int → Int → List Line
  | .null, _, spaces => [.noChild spaces.toNat]
  | .node list left right, level, spaces =>
    .entry spaces.toNat level list.printListContents ::
      .leftChildren spaces.toNat ::
        (printTreeContents left (level + 1) (spaces + 2) ++
          .rightChildren spaces.toNat :: printTreeContents right (level + 1) (spaces + 2))

/-- The walk the output stands for: the node lines and the `No child` markers,
without the captions. -/
def BinaryTree.traverse (current : Tree) (level spaces : Int) : List Line :=
  (BinaryTree.printTreeContents current level spaces).filter (fun line => !line.isCaption)

/-! ## The sorted linked list -/

namespace LinkedList

theorem spliceLoop_perm (value : Int) :
    ∀ (rest : List Int) (lastNode : Int) (k : Nat) (newRest : List Int),
      spliceLoop value lastNode rest = some (k, newRest) →
        newRest.Perm (value :: rest) ∧ k < rest.length := by
  intro rest
  induction rest with
  | nil => intro lastNode k newRest h; simp [spliceLoop] at h
  | cons cur rest ih =>
    intro lastNode k newRest h
    unfold spliceLoop at h
    split at h
    · simp only [Option.some.injEq, Prod.mk.injEq] at h
      obtain ⟨rfl, rfl⟩ := h
      exact ⟨List.Perm.refl _, by simp⟩
    · cases hrec : spliceLoop value cur rest with
      | none => simp [hrec] at h
      | some p =>
        obtain ⟨k', newRest'⟩ := p
        simp only [hrec, Option.some.injEq, Prod.mk.injEq] at h
        obtain ⟨rfl, rfl⟩ := h
        obtain ⟨hp, hk⟩ := ih cur k' newRest' hrec
        refine ⟨?_, by simpa using hk⟩
        exact (List.Perm.cons cur hp).trans (List.Perm.swap value cur rest)

theorem spliceLoop_sorted (value : Int) :
    ∀ (rest : List Int) (lastNode : Int) (k : Nat) (newRest : List Int),
      spliceLoop value lastNode rest = some (k, newRest) →
        lastNode ≤ value → (lastNode :: rest).Sorted (· ≤ ·) →
          (lastNode :: newRest).Sorted (· ≤ ·) := by
  intro rest
  induction rest with
  | nil => intro lastNode k newRest h; simp [spliceLoop] at h
  | cons cur rest ih =>
    intro lastNode k newRest h hle hs
    have hperm := (spliceLoop_perm value (cur :: rest) lastNode k newRest h).1
    unfold spliceLoop at h
    rw [List.sorted_cons] at hs
    obtain ⟨hlast, hrest⟩ := hs
    split at h
    · rename_i hc
      simp only [Option.some.injEq, Prod.mk.injEq] at h
      obtain ⟨-, rfl⟩ := h
      rw [List.sorted_cons] at hrest
      refine List.sorted_cons.2 ⟨?_, List.sorted_cons.2 ⟨?_, List.sorted_cons.2 hrest⟩⟩
      · intro b hb
        rcases List.mem_cons.1 hb with rfl | hb
        · exact hle
        · exact hlast b hb
      · intro b hb
        rcases List.mem_cons.1 hb with rfl | hb
        · exact hc.2
        · exact le_trans hc.2 (hrest.1 b hb)
    · rename_i hc
      cases hrec : spliceLoop value cur rest with
      | none => simp [hrec] at h
      | some p =>
        obtain ⟨k', newRest'⟩ := p
        simp only [hrec, Option.some.injEq, Prod.mk.injEq] at h
        obtain ⟨-, rfl⟩ := h
        have hcur : cur ≤ value := by
          by_contra hcon
          exact hc ⟨hle, le_of_lt (not_le.1 hcon)⟩
        refine List.sorted_cons.2 ⟨?_, ih cur k' newRest' hrec hcur hrest⟩
        intro b hb
        rcases List.mem_cons.1 (hperm.subset hb) with rfl | hb
        · exact hle
        · exact hlast b hb

theorem spliceLoop_finds (value : Int) :
    ∀ (rest : List Int) (lastNode tailValue : Int),
      (lastNode :: rest)[rest.length]? = some tailValue →
        lastNode < value → value < tailValue →
          ∃ k newRest, spliceLoop value lastNode rest = some (k, newRest) := by
  intro rest
  induction rest with
  | nil =>
    intro lastNode tailValue ht h1 h2
    simp at ht
    omega
  | cons cur rest ih =>
    intro lastNode tailValue ht h1 h2
    unfold spliceLoop
    split
    · exact ⟨_, _, rfl⟩
    · rename_i hc
      have hcur : cur < value := by
        by_contra hcon
        exact hc ⟨le_of_lt h1, not_lt.1 hcon⟩
      have ht' : (cur :: rest)[rest.length]? = some tailValue := by
        simpa using ht
      obtain ⟨k, newRest, hrec⟩ := ih cur tailValue ht' hcur h2
      exact ⟨k + 1, cur :: newRest, by simp [hrec]⟩

/-- The seed constructor establishes `Built`. -/
theorem built_newWith (value : Int) : (newWith value).Built :=
  { nonempty := by simp [newWith]
    sorted := by simp [newWith]
    tail_last := by simp [newWith]
    size_eq := by simp [newWith]
    sum_eq := by simp [newWith] }

/-- On a built list `add` returns normally, links exactly the new value into
the chain and keeps the list built. -/
theorem add_built (l : LinkedList) (value : Int) (hl : l.Built) :
    ∃ l', l.add value = .ok l' ∧ l'.Built ∧ l'.chain.Perm (value :: l.chain) := by
  obtain ⟨size, sum, chain, tail⟩ := l
  obtain ⟨hne, hs, ht, hsize, hsum⟩ := hl
  simp only at hne hs ht hsize hsum
  cases chain with
  | nil => exact absurd rfl hne
  | cons hd rest =>
    simp only [List.length_cons, Nat.add_sub_cancel] at ht
    subst ht
    simp only [add]
    by_cases h1 : value ≤ hd
    · rw [if_pos h1]
      refine ⟨_, rfl, ?_, List.Perm.refl _⟩
      refine ⟨by simp, ?_, by simp, ?_, ?_⟩
      · refine List.sorted_cons.2 ⟨?_, hs⟩
        intro b hb
        rcases List.mem_cons.1 hb with rfl | hb
        · exact h1
        · exact le_trans h1 ((List.sorted_cons.1 hs).1 b hb)
      · simp [hsize]
      · simp [hsum]; ring
    · rw [if_neg h1]
      have hlt : rest.length < (hd :: rest).length := by simp
      obtain ⟨tailValue, htv⟩ : ∃ tv, (hd :: rest)[rest.length]? = some tv :=
        ⟨_, List.getElem?_eq_getElem hlt⟩
      simp only [htv]
      by_cases h2 : value ≥ tailValue
      · rw [if_pos h2]
        have htake : (hd :: rest).take (rest.length + 1) = hd :: rest :=
          List.take_of_length_le (by simp)
        refine ⟨_, rfl, ?_, ?_⟩
        · refine ⟨by simp, ?_, by simp, ?_, ?_⟩
          · simp only [htake]
            refine List.pairwise_append.2 ⟨hs, by simp, ?_⟩
            intro a ha b hb
            simp only [List.mem_singleton] at hb
            subst hb
            obtain ⟨i, hi, rfl⟩ := List.getElem_of_mem ha
            have hidx : (hd :: rest)[rest.length] = tailValue := by
              have := List.getElem?_eq_getElem hlt
              rw [htv] at this
              exact (Option.some.inj this).symm
            have hle : (hd :: rest)[i] ≤ (hd :: rest)[rest.length] := by
              rcases Nat.lt_or_ge i rest.length with hlt' | hge
              · exact List.pairwise_iff_getElem.1 hs i rest.length hi hlt hlt'
              · have : i = rest.length := by
                  simp only [List.length_cons] at hi
                  omega
                subst this
                exact le_refl _
            rw [hidx] at hle
            exact le_trans hle h2
          · simp [hsize, htake]
          · simp [hsum, htake]
            ring
        · simp only [htake]
          exact List.perm_append_singleton value (hd :: rest)
      · rw [if_neg h2]
        obtain ⟨k, newRest, hk⟩ :=
          spliceLoop_finds value rest hd tailValue htv (not_le.1 h1) (not_le.1 h2)
        obtain ⟨hperm, hklt⟩ := spliceLoop_perm value rest hd k newRest hk
        have hsorted := spliceLoop_sorted value rest hd k newRest hk (le_of_lt (not_le.1 h1)) hs
        simp only [hk]
        refine ⟨_, rfl, ?_, ?_⟩
        · refine ⟨by simp, hsorted, ?_, ?_, ?_⟩
          · have hlen := hperm.length_eq
            simp only [List.length_cons] at hlen
            simp only [List.length_cons, Nat.add_sub_cancel, hlen]
            rw [if_pos (by omega)]
          · have hlen := hperm.length_eq
            simp only [List.length_cons] at hlen
            simp [hsize, hlen]
          · have hsum' := hperm.sum_eq
            simp only [List.sum_cons] at hsum'
            simp [hsum, hsum']
            ring
        · exact (List.Perm.cons hd hperm).trans (List.Perm.swap value hd rest)

/-- Every sequence of `add` calls on a built list returns normally with a
built list holding the old values and the added ones. -/
theorem addAll_built (values : List Int) :
    ∀ l : LinkedList, l.Built →
      ∃ l', l.addAll values = .ok l' ∧ l'.Built ∧ l'.chain.Perm (l.chain ++ values) := by
  induction values with
  | nil => intro l hl; exact ⟨l, rfl, hl, by simp⟩
  | cons x xs ih =>
    intro l hl
    obtain ⟨l1, h1, hb1, hp1⟩ := add_built l x hl
    obtain ⟨l2, h2, hb2, hp2⟩ := ih l1 hb1
    refine ⟨l2, by simp [addAll, h1, h2], hb2, hp2.trans ?_⟩
    have : (l1.chain ++ xs).Perm ((x :: l.chain) ++ xs) := List.Perm.append_right xs hp1
    refine this.trans ?_
    simp only [List.cons_append]
    exact (List.perm_middle).symm

/-- In an ascending list everything up to position `t` is at most the value
at position `t`. -/
theorem le_of_mem_take_succ :
    ∀ (chain : List Int) (t : Nat) (tailValue : Int),
      chain.Sorted (· ≤ ·) → chain[t]? = some tailValue →
        ∀ a ∈ chain.take (t + 1), a ≤ tailValue := by
  intro chain
  induction chain with
  | nil => intro t tailValue _ ht; simp at ht
  | cons hd rest ih =>
    intro t tailValue hs ht a ha
    cases t with
    | zero =>
      simp only [List.getElem?_cons_zero, Option.some.injEq] at ht
      simp only [Nat.zero_add, List.take_succ_cons, List.take_zero, List.mem_singleton] at ha
      omega
    | succ t =>
      simp only [List.getElem?_cons_succ] at ht
      simp only [List.take_succ_cons, List.mem_cons] at ha
      rcases ha with rfl | ha
      · exact (List.sorted_cons.1 hs).1 tailValue (List.getElem?_mem ht)
      · exact ih t tailValue (List.sorted_cons.1 hs).2 ht a ha

/-- Whatever `tail` points to, `add` keeps an ascending chain ascending. -/
theorem add_sorted (l l' : LinkedList) (value : Int)
    (hs : l.chain.Sorted (· ≤ ·)) (h : l.add value = .ok l') :
    l'.chain.Sorted (· ≤ ·) := by
  obtain ⟨size, sum, chain, tail⟩ := l
  simp only at hs
  cases chain with
  | nil => simp [add] at h
  | cons hd rest =>
    simp only [add] at h
    split at h
    · rename_i h1
      simp only [Except.ok.injEq] at h
      subst h
      refine List.sorted_cons.2 ⟨?_, hs⟩
      intro b hb
      rcases List.mem_cons.1 hb with rfl | hb
      · exact h1
      · exact le_trans h1 ((List.sorted_cons.1 hs).1 b hb)
    · rename_i h1
      split at h
      · simp at h
      · rename_i t
        split at h
        · simp at h
        · rename_i tailValue htv
          split at h
          · rename_i h2
            simp only [Except.ok.injEq] at h
            subst h
            refine List.pairwise_append.2
              ⟨List.Pairwise.sublist (List.take_sublist _ _) hs, by simp, ?_⟩
            intro a ha b hb
            simp only [List.mem_singleton] at hb
            subst hb
            exact le_trans (le_of_mem_take_succ (hd :: rest) t tailValue hs htv a ha) h2
          · split at h
            · simp only [Except.ok.injEq] at h
              subst h
              exact hs
            · rename_i k newRest hk
              simp only [Except.ok.injEq] at h
              subst h
              exact spliceLoop_sorted value rest hd k newRest hk (le_of_lt (not_le.1 h1)) hs

/-- With a head and with `tail` on a node of the chain, `add` returns. -/
theorem add_returns (l : LinkedList) (value : Int) (t : Nat)
    (hne : l.chain ≠ []) (ht : l.tail = some t) (hlt : t < l.chain.length) :
    ∃ l', l.add value = .ok l' := by
  obtain ⟨size, sum, chain, tail⟩ := l
  simp only at hne ht hlt
  subst ht
  cases chain with
  | nil => exact absurd rfl hne
  | cons hd rest =>
    simp only [add, List.getElem?_eq_getElem hlt]
    split
    · exact ⟨_, rfl⟩
    · split
      · exact ⟨_, rfl⟩
      · split <;> exact ⟨_, rfl⟩

end LinkedList

/-! ## The tree of lists -/

namespace BinaryTree

/-- When both pointers of the loop are the same node, no iteration issues a
call, and the flag is set as soon as one iteration runs. -/
theorem compareLoop_same (v : Int) :
    ∀ (n : Nat) (calls : List Bool) (flag : Bool),
      compareLoop (some v) (some v) n (calls, flag) =
        .ok (calls, if n = 0 then flag else true) := by
  intro n
  induction n with
  | zero => intro calls flag; simp [compareLoop]
  | succ n ih =>
    intro calls flag
    simp only [compareLoop, lt_irrefl, gt_iff_lt, if_false, ih calls true]
    simp

/-- A node whose `size` is not positive issues no call in the third branch. -/
theorem tieCalls_of_size_nonpos (currentNode : LinkedList) (h : currentNode.size ≤ 0) :
    tieCalls currentNode = .ok [] := by
  have h0 : currentNode.size.toNat = 0 := Int.toNat_eq_zero.2 h
  simp [tieCalls, LinkedList.getSize, h0, compareLoop]

/-- A node with positive `size` and a head issues exactly one call in the
third branch, for the right child. -/
theorem tieCalls_of_size_pos (currentNode : LinkedList) (h : 0 < currentNode.size)
    (hne : currentNode.chain ≠ []) : tieCalls currentNode = .ok [true] := by
  have h0 : currentNode.size.toNat ≠ 0 := by
    intro hz
    have := Int.toNat_eq_zero.1 hz
    omega
  obtain ⟨v, hv⟩ : ∃ v, currentNode.chain.head? = some v := by
    cases hc : currentNode.chain with
    | nil => exact absurd hc hne
    | cons a _ => exact ⟨a, rfl⟩
  simp [tieCalls, LinkedList.getSize, LinkedList.getTerminalNode, hv, compareLoop_same, h0]

/-- Equal `size` and `sum` at a node that holds at least one element: the
descent continues in the right child, whatever the elements are. -/
theorem addAt_tie_right (currentNode list : LinkedList) (left right : Tree)
    (hsize : currentNode.size = list.size) (hsum : currentNode.sum = list.sum)
    (hpos : 0 < currentNode.size) (hne : currentNode.chain ≠ []) :
    addAt (.node currentNode left right) list =
      (addAt right list).map (fun r => .node currentNode left r) := by
  simp [addAt, LinkedList.getSize, LinkedList.getSum, hsize, hsum,
    tieCalls_of_size_pos currentNode hpos hne]

/-- Equal `size` and `sum` at a node whose `size` is not positive: no call is
made and the subtree is returned as it was. -/
theorem addAt_tie_dropped (currentNode list : LinkedList) (left right : Tree)
    (hsize : currentNode.size = list.size) (hsum : currentNode.sum = list.sum)
    (hpos : currentNode.size ≤ 0) :
    addAt (.node currentNode left right) list = .ok (.node currentNode left right) := by
  simp [addAt, LinkedList.getSize, LinkedList.getSum, hsize, hsum,
    tieCalls_of_size_nonpos currentNode hpos]

/-- Continuing in the right child adds a node when it does so below. -/
theorem descend_right_adds (currentNode list : LinkedList) (left right : Tree)
    (h : addAt (.node currentNode left right) list =
      (addAt right list).map (fun r => .node currentNode left r))
    (ih : ∃ r', addAt right list = .ok r' ∧ r'.numNodes = right.numNodes + 1 ∧
      r'.lists.Perm (list :: right.lists)) :
    ∃ t', addAt (.node currentNode left right) list = .ok t' ∧
      t'.numNodes = (Tree.node currentNode left right).numNodes + 1 ∧
      t'.lists.Perm (list :: (Tree.node currentNode left right).lists) := by
  obtain ⟨r', hr, hn, hp⟩ := ih
  refine ⟨.node currentNode left r', by rw [h, hr]; rfl, ?_, ?_⟩
  · simp only [Tree.numNodes, hn]
    omega
  · simp only [Tree.lists]
    have h1 : (left.lists ++ r'.lists).Perm (list :: (left.lists ++ right.lists)) :=
      (List.Perm.append_left left.lists hp).trans List.perm_middle
    exact (List.Perm.cons currentNode h1).trans (List.Perm.swap list currentNode _)

/-- Continuing in the left child adds a node when it does so below. -/
theorem descend_left_adds (currentNode list : LinkedList) (left right : Tree)
    (h : addAt (.node currentNode left right) list =
      (addAt left list).map (fun l => .node currentNode l right))
    (ih : ∃ l', addAt left list = .ok l' ∧ l'.numNodes = left.numNodes + 1 ∧
      l'.lists.Perm (list :: left.lists)) :
    ∃ t', addAt (.node currentNode left right) list = .ok t' ∧
      t'.numNodes = (Tree.node currentNode left right).numNodes + 1 ∧
      t'.lists.Perm (list :: (Tree.node currentNode left right).lists) := by
  obtain ⟨l', hl, hn, hp⟩ := ih
  refine ⟨.node currentNode l' right, by rw [h, hl]; rfl, ?_, ?_⟩
  · simp only [Tree.numNodes, hn]
    omega
  · simp only [Tree.lists]
    have h1 : (l'.lists ++ right.lists).Perm (list :: (left.lists ++ right.lists)) :=
      List.Perm.append_right right.lists hp
    exact (List.Perm.cons currentNode h1).trans (List.Perm.swap list currentNode _)

/-- In a tree all of whose nodes hold at least one element, every insertion
returns normally, adds exactly one node and that node holds the inserted
list. -/
theorem addAt_adds_one_node (list : LinkedList) :
    ∀ t : Tree, (∀ x ∈ t.lists, 0 < x.size ∧ x.chain ≠ []) →
      ∃ t', addAt t list = .ok t' ∧ t'.numNodes = t.numNodes + 1 ∧
        t'.lists.Perm (list :: t.lists) := by
  intro t
  induction t with
  | null =>
    intro _
    exact ⟨.node list .null .null, rfl, rfl, by simp [Tree.lists]⟩
  | node currentNode left right ihl ihr =>
    intro hall
    have hcur := hall currentNode (by simp [Tree.lists])
    have hl := ihl (fun x hx => hall x (by simp [Tree.lists, hx]))
    have hr := ihr (fun x hx => hall x (by simp [Tree.lists, hx]))
    by_cases hsize : currentNode.size = list.size
    · by_cases hsum : currentNode.sum = list.sum
      · exact descend_right_adds currentNode list left right
          (addAt_tie_right currentNode list left right hsize hsum hcur.1 hcur.2) hr
      · by_cases hle : currentNode.sum ≤ list.sum
        · exact descend_right_adds currentNode list left right
            (by simp [addAt, LinkedList.getSize, LinkedList.getSum, hsize, hsum, hle]) hr
        · exact descend_left_adds currentNode list left right
            (by simp [addAt, LinkedList.getSize, LinkedList.getSum, hsize, hsum, hle]) hl
    · by_cases hle : currentNode.size ≤ list.size
      · exact descend_right_adds currentNode list left right
          (by simp [addAt, LinkedList.getSize, hsize, hle]) hr
      · exact descend_left_adds currentNode list left right
          (by simp [addAt, LinkedList.getSize, hsize, hle]) hl

end BinaryTree

/-! ## Placement rules of `BinaryTree::add` -/

/-- C1, evaluated where it fails: the lists `main` builds from `2 3` and from
`1 4` have the same count and total, and inserting them in this order into an
empty tree puts `[1, 4]` into the right subtree of `[2, 3]`, although `[1, 4]`
compares less than `[2, 3]` under the composite comparator (count, total,
elements). The tree-shape invariant under that comparator does not hold after
the second insertion. -/
theorem composite_order_broken_by_equal_keys :
    LinkedList.ofInput [2, 3] = some (.ok ⟨2, 5, [2, 3], some 1⟩) ∧
    LinkedList.ofInput [1, 4] = some (.ok ⟨2, 5, [1, 4], some 1⟩) ∧
    BinaryTree.addAll BinaryTree.new [⟨2, 5, [2, 3], some 1⟩, ⟨2, 5, [1, 4], some 1⟩] =
      .ok ⟨.node ⟨2, 5, [2, 3], some 1⟩ .null (.node ⟨2, 5, [1, 4], some 1⟩ .null .null)⟩ ∧
    specCompare ⟨2, 5, [1, 4], some 1⟩ ⟨2, 5, [2, 3], some 1⟩ = .lt ∧
    ¬ (Tree.node ⟨2, 5, [2, 3], some 1⟩ .null
        (.node ⟨2, 5, [1, 4], some 1⟩ .null .null)).Ordered specCompare := by
  decide

/-- C2, evaluated where it fails: at the node `N = [2, 3]` the inserted list
`I = [1, 4]` (same count, same total) is sent to the right child, although at
the first index where the sequences differ the element of `N` is the larger
one, for which the rule asks for the left child. -/
theorem tie_break_sends_smaller_list_right :
    BinaryTree.addAt (.node ⟨2, 5, [2, 3], some 1⟩ .null .null) ⟨2, 5, [1, 4], some 1⟩ =
      .ok (.node ⟨2, 5, [2, 3], some 1⟩ .null (.node ⟨2, 5, [1, 4], some 1⟩ .null .null)) ∧
    specLex [2, 3] [1, 4] = .gt ∧
    BinaryTree.addAt (.node ⟨2, 5, [2, 3], some 1⟩ .null .null) ⟨2, 5, [1, 4], some 1⟩ ≠
      .ok (.node ⟨2, 5, [2, 3], some 1⟩ (.node ⟨2, 5, [1, 4], some 1⟩ .null .null) .null) := by
  decide

/-- C3, count rule: at a node `N` whose count differs from the count of the
inserted list `I`, the insertion continues in the right child of `N` when
`N.count < I.count` and in the left child when `N.count > I.count`; the other
child and the node itself are left as they were, and neither the totals nor
the elements are looked at. -/
theorem addAt_count_rule (currentNode list : LinkedList) (left right : Tree)
    (h : currentNode.getSize ≠ list.getSize) :
    (currentNode.getSize < list.getSize →
      BinaryTree.addAt (.node currentNode left right) list =
        (BinaryTree.addAt right list).map (fun r => .node currentNode left r)) ∧
    (currentNode.getSize > list.getSize →
      BinaryTree.addAt (.node currentNode left right) list =
        (BinaryTree.addAt left list).map (fun l => .node currentNode l right)) := by
  constructor
  · intro hlt
    simp [BinaryTree.addAt, h, le_of_lt hlt]
  · intro hgt
    simp [BinaryTree.addAt, h, not_le.2 hgt]

/-- The two scenarios of the count rule: `[5, 6, 7]` becomes the right child
of `[1, 2]`, and `[0, 0, 0, 0]` becomes the right child of `[4, 4]` although its
total is lower. -/
theorem addAt_count_rule_witness :
    (LinkedList.getSize ⟨2, 3, [1, 2], some 1⟩ ≠ LinkedList.getSize ⟨3, 18, [5, 6, 7], some 2⟩ ∧
      BinaryTree.addAt (.node ⟨2, 3, [1, 2], some 1⟩ .null .null) ⟨3, 18, [5, 6, 7], some 2⟩ =
        .ok (.node ⟨2, 3, [1, 2], some 1⟩ .null (.node ⟨3, 18, [5, 6, 7], some 2⟩ .null .null))) ∧
    (LinkedList.getSize ⟨2, 8, [4, 4], some 1⟩ ≠ LinkedList.getSize ⟨4, 0, [0, 0, 0, 0], some 3⟩ ∧
      BinaryTree.addAt (.node ⟨2, 8, [4, 4], some 1⟩ .null .null) ⟨4, 0, [0, 0, 0, 0], some 3⟩ =
        .ok (.node ⟨2, 8, [4, 4], some 1⟩ .null
          (.node ⟨4, 0, [0, 0, 0, 0], some 3⟩ .null .null))) :=
  ⟨⟨by decide, ((addAt_count_rule _ _ _ _ (by decide)).1 (by decide)).trans (by decide)⟩,
   ⟨by decide, ((addAt_count_rule _ _ _ _ (by decide)).1 (by decide)).trans (by decide)⟩⟩

/-- C4, total rule: at a node `N` with the same count as the inserted list `I`
and a different total, the insertion continues in the right child of `N` when
`N.total < I.total` and in the left child when `N.total > I.total`; the
elements are not looked at. -/
theorem addAt_total_rule (currentNode list : LinkedList) (left right : Tree)
    (hcount : currentNode.getSize = list.getSize) (h : currentNode.getSum ≠ list.getSum) :
    (currentNode.getSum < list.getSum →
      BinaryTree.addAt (.node currentNode left right) list =
        (BinaryTree.addAt right list).map (fun r => .node currentNode left r)) ∧
    (currentNode.getSum > list.getSum →
      BinaryTree.addAt (.node currentNode left right) list =
        (BinaryTree.addAt left list).map (fun l => .node currentNode l right)) := by
  constructor
  · intro hlt
    simp [BinaryTree.addAt, hcount, h, le_of_lt hlt]
  · intro hgt
    simp [BinaryTree.addAt, hcount, h, not_le.2 hgt]

/-- The total rule on two pairs of two-element lists: `[5, 9]` (total 14) goes
right of `[1, 2]` (total 3) although both its elements are larger and one would
do, and `[1, 2]` goes left of `[5, 9]`. -/
theorem addAt_total_rule_witness :
    (LinkedList.getSize ⟨2, 3, [1, 2], some 1⟩ = LinkedList.getSize ⟨2, 14, [5, 9], some 1⟩ ∧
      LinkedList.getSum ⟨2, 3, [1, 2], some 1⟩ ≠ LinkedList.getSum ⟨2, 14, [5, 9], some 1⟩ ∧
      BinaryTree.addAt (.node ⟨2, 3, [1, 2], some 1⟩ .null .null) ⟨2, 14, [5, 9], some 1⟩ =
        .ok (.node ⟨2, 3, [1, 2], some 1⟩ .null (.node ⟨2, 14, [5, 9], some 1⟩ .null .null))) ∧
    (LinkedList.getSize ⟨2, 14, [5, 9], some 1⟩ = LinkedList.getSize ⟨2, 3, [1, 2], some 1⟩ ∧
      LinkedList.getSum ⟨2, 14, [5, 9], some 1⟩ ≠ LinkedList.getSum ⟨2, 3, [1, 2], some 1⟩ ∧
      BinaryTree.addAt (.node ⟨2, 14, [5, 9], some 1⟩ .null .null) ⟨2, 3, [1, 2], some 1⟩ =
        .ok (.node ⟨2, 14, [5, 9], some 1⟩ (.node ⟨2, 3, [1, 2], some 1⟩ .null .null) .null)) :=
  ⟨⟨by decide, by decide,
      ((addAt_total_rule _ _ _ _ (by decide) (by decide)).1 (by decide)).trans (by decide)⟩,
   ⟨by decide, by decide,
      ((addAt_total_rule _ _ _ _ (by decide) (by decide)).2 (by decide)).trans (by decide)⟩⟩

/-- C5, evaluated where it fails: a default-constructed list inserted at a node
that holds a default-constructed list (identical: count 0, total 0, no
elements) is not sent to the right child; the node keeps both children absent.
The claim's own scenario, `[1, 2, 3]` inserted at `[1, 2, 3]`, does go right. -/
theorem identical_empty_list_not_sent_right :
    BinaryTree.addAt (.node LinkedList.new .null .null) LinkedList.new =
      .ok (.node LinkedList.new .null .null) ∧
    BinaryTree.addAt (.node LinkedList.new .null .null) LinkedList.new ≠
      .ok (.node LinkedList.new .null (.node LinkedList.new .null .null)) ∧
    BinaryTree.addAt (.node ⟨3, 6, [1, 2, 3], some 2⟩ .null .null) ⟨3, 6, [1, 2, 3], some 2⟩ =
      .ok (.node ⟨3, 6, [1, 2, 3], some 2⟩ .null
        (.node ⟨3, 6, [1, 2, 3], some 2⟩ .null .null)) := by
  decide

/-! ## Invariants of `LinkedList::add` -/

/-- C6, sortedness: a list created by `LinkedList(int)` and extended by any
sequence of `add` calls (every prefix of a sequence is a sequence) has an
ascending chain, every call returning normally; and on any list with a head
and an ascending chain, `add` leaves the chain ascending whenever it returns,
and it returns whenever `tail` is a node of the chain. -/
theorem chain_sorted_after_every_add :
    (∀ (seed : Int) (values : List Int),
      ∃ l, (LinkedList.newWith seed).addAll values = .ok l ∧ l.chain.Sorted (· ≤ ·)) ∧
    (∀ (l : LinkedList) (value : Int), l.chain ≠ [] → l.chain.Sorted (· ≤ ·) →
      (∀ l', l.add value = .ok l' → l'.chain.Sorted (· ≤ ·)) ∧
      (∀ t, l.tail = some t → t < l.chain.length → ∃ l', l.add value = .ok l')) := by
  refine ⟨?_, ?_⟩
  · intro seed values
    obtain ⟨l, h, hb, -⟩ :=
      LinkedList.addAll_built values (LinkedList.newWith seed) (LinkedList.built_newWith seed)
    exact ⟨l, h, hb.sorted⟩
  · intro l value hne hs
    exact ⟨fun l' h => LinkedList.add_sorted l l' value hs h,
      fun t ht hlt => LinkedList.add_returns l value t hne ht hlt⟩

/-- The list `[1, 4, 9]` with `tail` on its last node: adding `5` returns the
list `[1, 4, 5, 9]`, which is ascending. -/
theorem chain_sorted_after_every_add_witness :
    (LinkedList.mk 3 14 [1, 4, 9] (some 2)).chain ≠ [] ∧
    (LinkedList.mk 3 14 [1, 4, 9] (some 2)).chain.Sorted (· ≤ ·) ∧
    (LinkedList.mk 3 14 [1, 4, 9] (some 2)).add 5 = .ok ⟨4, 19, [1, 4, 5, 9], some 3⟩ ∧
    (LinkedList.mk 4 19 [1, 4, 5, 9] (some 3)).chain.Sorted (· ≤ ·) :=
  ⟨by decide, by decide, by decide,
    (chain_sorted_after_every_add.2 ⟨3, 14, [1, 4, 9], some 2⟩ 5
      (by decide) (by decide)).1 ⟨4, 19, [1, 4, 5, 9], some 3⟩ (by decide)⟩

/-- C7, cached metadata: for a list created by `LinkedList(int)` and extended
by any sequence of `add` calls, every call returns normally, `getSize()` is the
number of nodes linked from `head`, `getSum()` is the sum of their values, and
the chain has one node for the seed and one for every `add` call. -/
theorem cached_size_and_sum_exact (seed : Int) (values : List Int) :
    ∃ l, (LinkedList.newWith seed).addAll values = .ok l ∧
      l.getSize = l.chain.length ∧ l.getSum = l.chain.sum ∧
      l.chain.length = values.length + 1 := by
  obtain ⟨l, h, hb, hp⟩ :=
    LinkedList.addAll_built values (LinkedList.newWith seed) (LinkedList.built_newWith seed)
  refine ⟨l, h, hb.size_eq, hb.sum_eq, ?_⟩
  have := hp.length_eq
  simpa [LinkedList.newWith, Nat.add_comm] using this

/-- C8, contents: for a non-empty input line, the list `main` builds (seed with
the first integer, `add` the others in order) is returned normally, its chain
is the ascending sort of the input, a permutation of the input, and its count
and total are the length and the sum of the input. -/
theorem ofInput_is_sorted_input (input : List Int) (h : input ≠ []) :
    ∃ l, LinkedList.ofInput input = some (.ok l) ∧
      l.chain = input.insertionSort (· ≤ ·) ∧ l.chain.Perm input ∧
      l.getSize = input.length ∧ l.getSum = input.sum := by
  cases input with
  | nil => exact absurd rfl h
  | cons first others =>
    obtain ⟨l, hl, hb, hp⟩ :=
      LinkedList.addAll_built others (LinkedList.newWith first) (LinkedList.built_newWith first)
    have hperm : l.chain.Perm (first :: others) := by
      simpa [LinkedList.newWith] using hp
    refine ⟨l, by simp [LinkedList.ofInput, hl], ?_, hperm, ?_, ?_⟩
    · exact List.eq_of_perm_of_sorted
        (hperm.trans (List.perm_insertionSort (· ≤ ·) (first :: others)).symm)
        hb.sorted (List.sorted_insertionSort (· ≤ ·) (first :: others))
    · rw [LinkedList.getSize, hb.size_eq, hperm.length_eq]
    · rw [LinkedList.getSum, hb.sum_eq, hperm.sum_eq]

/-- The input `3 1 2` gives the chain `[1, 2, 3]` with count 3 and total 6. -/
theorem ofInput_is_sorted_input_witness :
    ([3, 1, 2] : List Int) ≠ [] ∧
    ∃ l, LinkedList.ofInput [3, 1, 2] = some (.ok l) ∧
      l.chain = [1, 2, 3] ∧ l.getSize = 3 ∧ l.getSum = 6 :=
  ⟨by decide, by
    obtain ⟨l, h1, h2, -, h4, h5⟩ := ofInput_is_sorted_input [3, 1, 2] (by decide)
    exact ⟨l, h1, h2.trans (by decide), h4.trans (by decide), h5.trans (by decide)⟩⟩

/-! ## Growth of the tree -/

/-- C9, evaluated where it fails: a default-constructed list inserted into the
tree whose only node is a default-constructed list returns normally with the
tree unchanged: the number of nodes stays 1 instead of becoming 2. -/
theorem add_empty_list_to_empty_list_adds_no_node :
    BinaryTree.add ⟨.node LinkedList.new .null .null⟩ LinkedList.new =
      .ok ⟨.node LinkedList.new .null .null⟩ ∧
    (Tree.node LinkedList.new .null .null).numNodes = 1 ∧
    BinaryTree.addAll BinaryTree.new [LinkedList.new, LinkedList.new] =
      .ok ⟨.node LinkedList.new .null .null⟩ := by
  decide

/-- C10, empty tree: on a tree whose root is absent, `add` returns normally for
every list, whatever its fields, and the resulting tree consists of exactly one
node, the root, holding that list with both children absent. -/
theorem add_to_empty_tree (tree : BinaryTree) (list : LinkedList) (h : tree.root = .null) :
    ∃ tree', tree.add list = .ok tree' ∧ tree'.root = .node list .null .null ∧
      tree'.root.numNodes = 1 ∧ tree'.root.lists = [list] := by
  refine ⟨⟨.node list .null .null⟩, ?_, rfl, rfl, rfl⟩
  simp [BinaryTree.add, h]

/-- The tree made by `BinaryTree()` has no root, and adding the list `[7]` to
it makes `[7]` the root. -/
theorem add_to_empty_tree_witness :
    BinaryTree.new.root = .null ∧
    ∃ tree', BinaryTree.new.add (LinkedList.newWith 7) = .ok tree' ∧
      tree'.root = .node (LinkedList.newWith 7) .null .null ∧
      tree'.root.numNodes = 1 ∧ tree'.root.lists = [LinkedList.newWith 7] :=
  ⟨rfl, add_to_empty_tree BinaryTree.new (LinkedList.newWith 7) rfl⟩

/-! ## The descent of `BinaryTree::add`, case by case -/

namespace BinaryTree

theorem map_eq_ok {α β : Type} (e : Except Fault α) (f : α → β) (b : β)
    (h : e.map f = .ok b) : ∃ a, e = .ok a ∧ f a = b := by
  cases e with
  | error err => simp [Except.map] at h
  | ok a => exact ⟨a, rfl, by simpa [Except.map] using h⟩

theorem keyCompare_lt_iff (a b : LinkedList) :
    keyCompare a b = .lt ↔ a.size < b.size ∨ (a.size = b.size ∧ a.sum < b.sum) := by
  unfold keyCompare
  by_cases h1 : a.size = b.size
  · by_cases h2 : a.sum = b.sum
    · simp [h1, h2]
    · by_cases h3 : a.sum < b.sum
      · simp [h1, h2, h3]
      · simp [h1, h2, h3]
  · by_cases h3 : a.size < b.size
    · simp [h1, h3]
    · simp [h1, h3]

/-- A node with positive `size` and no head: the first iteration of the loop
reads through `NULL`. -/
theorem tieCalls_of_size_pos_nil (currentNode : LinkedList) (h : 0 < currentNode.size)
    (hnil : currentNode.chain = []) : tieCalls currentNode = .error .nullHead := by
  obtain ⟨n, hn⟩ : ∃ n, currentNode.size.toNat = n + 1 := by
    refine ⟨currentNode.size.toNat - 1, ?_⟩
    have : 0 < currentNode.size.toNat := by
      rcases Nat.eq_zero_or_pos currentNode.size.toNat with hz | hp
      · have := Int.toNat_eq_zero.1 hz
        omega
      · exact hp
    omega
  simp [tieCalls, LinkedList.getSize, LinkedList.getTerminalNode, hnil, hn, compareLoop]

/-- What `add` does at a node: it continues in the left child, or in the right
child, or returns without linking the list (equal keys at a node whose `size`
is not positive), or reads through a `NULL` head. -/
theorem addAt_node_cases (currentNode list : LinkedList) (left right : Tree) :
    (keyCompare list currentNode = .lt ∧
      addAt (.node currentNode left right) list =
        (addAt left list).map (fun l => .node currentNode l right)) ∨
    (keyCompare list currentNode ≠ .lt ∧
      (currentNode.size = list.size → currentNode.sum = list.sum →
        0 < currentNode.size ∧ currentNode.chain ≠ []) ∧
      addAt (.node currentNode left right) list =
        (addAt right list).map (fun r => .node currentNode left r)) ∨
    (currentNode.size = list.size ∧ currentNode.sum = list.sum ∧ currentNode.size ≤ 0 ∧
      addAt (.node currentNode left right) list = .ok (.node currentNode left right)) ∨
    (currentNode.size = list.size ∧ currentNode.sum = list.sum ∧ 0 < currentNode.size ∧
      currentNode.chain = [] ∧
      addAt (.node currentNode left right) list = .error .nullHead) := by
  by_cases hsize : currentNode.size = list.size
  · by_cases hsum : currentNode.sum = list.sum
    · by_cases hpos : 0 < currentNode.size
      · by_cases hne : currentNode.chain = []
        · refine Or.inr (Or.inr (Or.inr ⟨hsize, hsum, hpos, hne, ?_⟩))
          simp [addAt, LinkedList.getSize, LinkedList.getSum, hsize, hsum,
            tieCalls_of_size_pos_nil currentNode hpos hne]
        · refine Or.inr (Or.inl ⟨?_, fun _ _ => ⟨hpos, hne⟩,
            addAt_tie_right currentNode list left right hsize hsum hpos hne⟩)
          simp [keyCompare, hsize, hsum]
      · exact Or.inr (Or.inr (Or.inl ⟨hsize, hsum, not_lt.1 hpos,
          addAt_tie_dropped currentNode list left right hsize hsum (not_lt.1 hpos)⟩))
    · by_cases hle : currentNode.sum ≤ list.sum
      · refine Or.inr (Or.inl ⟨?_, fun _ h => absurd h hsum, ?_⟩)
        · rw [Ne, keyCompare_lt_iff]
          omega
        · simp [addAt, LinkedList.getSize, LinkedList.getSum, hsize, hsum, hle]
      · refine Or.inl ⟨?_, ?_⟩
        · rw [keyCompare_lt_iff]
          omega
        · simp [addAt, LinkedList.getSize, LinkedList.getSum, hsize, hsum, hle]
  · by_cases hle : currentNode.size ≤ list.size
    · refine Or.inr (Or.inl ⟨?_, fun h => absurd h hsize, ?_⟩)
      · rw [Ne, keyCompare_lt_iff]
        omega
      · simp [addAt, LinkedList.getSize, hsize, hle]
    · refine Or.inl ⟨?_, ?_⟩
      · rw [keyCompare_lt_iff]
        omega
      · simp [addAt, LinkedList.getSize, hsize, hle]

/-- Every list of the tree after an insertion is the inserted list or was in
the tree before. -/
theorem addAt_mem (list : LinkedList) :
    ∀ (t t' : Tree), addAt t list = .ok t' → ∀ x ∈ t'.lists, x = list ∨ x ∈ t.lists := by
  intro t
  induction t with
  | null =>
    intro t' h x hx
    simp only [addAt, Except.ok.injEq] at h
    subst h
    simpa [Tree.lists] using hx
  | node currentNode left right ihl ihr =>
    intro t' h x hx
    rcases addAt_node_cases currentNode list left right with
      ⟨-, hl⟩ | ⟨-, -, hr⟩ | ⟨-, -, -, hd⟩ | ⟨-, -, -, -, he⟩
    · rw [hl] at h
      obtain ⟨l', hl', rfl⟩ := map_eq_ok _ _ _ h
      simp only [Tree.lists, List.mem_cons, List.mem_append] at hx ⊢
      rcases hx with hx | hx | hx
      · exact Or.inr (Or.inl hx)
      · rcases ihl l' hl' x hx with h1 | h1
        · exact Or.inl h1
        · exact Or.inr (Or.inr (Or.inl h1))
      · exact Or.inr (Or.inr (Or.inr hx))
    · rw [hr] at h
      obtain ⟨r', hr', rfl⟩ := map_eq_ok _ _ _ h
      simp only [Tree.lists, List.mem_cons, List.mem_append] at hx ⊢
      rcases hx with hx | hx | hx
      · exact Or.inr (Or.inl hx)
      · exact Or.inr (Or.inr (Or.inl hx))
      · rcases ihr r' hr' x hx with h1 | h1
        · exact Or.inl h1
        · exact Or.inr (Or.inr (Or.inr h1))
    · rw [hd] at h
      simp only [Except.ok.injEq] at h
      subst h
      exact Or.inr hx
    · rw [he] at h
      simp at h

/-- An insertion keeps the tree ordered by count and total. -/
theorem addAt_ordered (list : LinkedList) :
    ∀ (t t' : Tree), addAt t list = .ok t' → t.Ordered keyCompare →
      t'.Ordered keyCompare := by
  intro t
  induction t with
  | null =>
    intro t' h _
    simp only [addAt, Except.ok.injEq] at h
    subst h
    simp [Tree.Ordered, Tree.lists]
  | node currentNode left right ihl ihr =>
    intro t' h ho
    obtain ⟨hol, hor, hl0, hr0⟩ := ho
    rcases addAt_node_cases currentNode list left right with
      ⟨hlt, hl⟩ | ⟨hge, -, hr⟩ | ⟨-, -, -, hd⟩ | ⟨-, -, -, -, he⟩
    · rw [hl] at h
      obtain ⟨l', hl', rfl⟩ := map_eq_ok _ _ _ h
      refine ⟨?_, hor, ihl l' hl' hl0, hr0⟩
      intro x hx
      rcases addAt_mem list left l' hl' x hx with rfl | hx
      · exact hlt
      · exact hol x hx
    · rw [hr] at h
      obtain ⟨r', hr', rfl⟩ := map_eq_ok _ _ _ h
      refine ⟨hol, ?_, hl0, ihr r' hr' hr0⟩
      intro x hx
      rcases addAt_mem list right r' hr' x hx with rfl | hx
      · exact hge
      · exact hor x hx
    · rw [hd] at h
      simp only [Except.ok.injEq] at h
      subst h
      exact ⟨hol, hor, hl0, hr0⟩
    · rw [he] at h
      simp at h

/-- When no node of the tree has a positive `size` and no head, every
insertion returns. -/
theorem addAt_returns (list : LinkedList) :
    ∀ t : Tree, (∀ x ∈ t.lists, 0 < x.size → x.chain ≠ []) →
      ∃ t', addAt t list = .ok t' := by
  intro t
  induction t with
  | null => intro _; exact ⟨_, rfl⟩
  | node currentNode left right ihl ihr =>
    intro hall
    obtain ⟨l', hl'⟩ := ihl (fun x hx => hall x (by simp [Tree.lists, hx]))
    obtain ⟨r', hr'⟩ := ihr (fun x hx => hall x (by simp [Tree.lists, hx]))
    rcases addAt_node_cases currentNode list left right with
      ⟨-, hl⟩ | ⟨-, -, hr⟩ | ⟨-, -, -, hd⟩ | ⟨-, -, hpos, hnil, -⟩
    · exact ⟨_, by rw [hl, hl']; rfl⟩
    · exact ⟨_, by rw [hr, hr']; rfl⟩
    · exact ⟨_, hd⟩
    · exact absurd hnil (hall currentNode (by simp [Tree.lists]) hpos)

/-- An insertion that returns leaves the tree as it was or replaces exactly one
absent child by the leaf holding the inserted list. -/
theorem addAt_graft (list : LinkedList) :
    ∀ (t t' : Tree), addAt t list = .ok t' →
      t' = t ∨ ∃ path, t.subtreeAt path = some .null ∧
        t' = t.graft path (.node list .null .null) := by
  intro t
  induction t with
  | null =>
    intro t' h
    simp only [addAt, Except.ok.injEq] at h
    subst h
    exact Or.inr ⟨[], rfl, rfl⟩
  | node currentNode left right ihl ihr =>
    intro t' h
    rcases addAt_node_cases currentNode list left right with
      ⟨-, hl⟩ | ⟨-, -, hr⟩ | ⟨-, -, -, hd⟩ | ⟨-, -, -, -, he⟩
    · rw [hl] at h
      obtain ⟨l', hl', rfl⟩ := map_eq_ok _ _ _ h
      rcases ihl l' hl' with rfl | ⟨path, hp, rfl⟩
      · exact Or.inl rfl
      · exact Or.inr ⟨false :: path, by simpa [Tree.subtreeAt] using hp, by simp [Tree.graft]⟩
    · rw [hr] at h
      obtain ⟨r', hr', rfl⟩ := map_eq_ok _ _ _ h
      rcases ihr r' hr' with rfl | ⟨path, hp, rfl⟩
      · exact Or.inl rfl
      · exact Or.inr ⟨true :: path, by simpa [Tree.subtreeAt] using hp, by simp [Tree.graft]⟩
    · rw [hd] at h
      simp only [Except.ok.injEq] at h
      exact Or.inl h.symm
    · rw [he] at h
      simp at h

end BinaryTree

namespace Tree

theorem subtreeAt_null (path : List Bool) (t : Tree) (h : null.subtreeAt path = some t) :
    path = [] ∧ t = null := by
  cases path with
  | nil => simp only [subtreeAt, Option.some.injEq] at h; exact ⟨rfl, h.symm⟩
  | cons b path => simp [subtreeAt] at h

/-- Replacing an absent child keeps every node at its position with its
contents. -/
theorem graft_frame (new : Tree) :
    ∀ (t : Tree) (path at_ : List Bool) (x : LinkedList) (l r : Tree),
      t.subtreeAt path = some null → t.subtreeAt at_ = some (node x l r) →
        ∃ l' r', (t.graft path new).subtreeAt at_ = some (node x l' r') := by
  intro t
  induction t with
  | null =>
    intro path at_ x l r _ hq
    have := (subtreeAt_null at_ _ hq).2
    simp at this
  | node list left right ihl ihr =>
    intro path at_ x l r hp hq
    cases path with
    | nil => simp [subtreeAt] at hp
    | cons b path =>
      cases at_ with
      | nil =>
        simp only [subtreeAt, Option.some.injEq, node.injEq] at hq
        obtain ⟨rfl, rfl, rfl⟩ := hq
        cases b <;> simp [graft, subtreeAt]
      | cons c at_ =>
        cases b <;> cases c <;> simp only [subtreeAt, graft, if_true, if_false,
          Bool.false_eq_true] at hp hq ⊢
        · exact ihl path at_ x l r hp hq
        · exact ⟨l, r, hq⟩
        · exact ⟨l, r, hq⟩
        · exact ihr path at_ x l r hp hq

/-- One step down from a node is `getChild`. -/
theorem subtreeAt_singleton (list : LinkedList) (left right : Tree) (isRightChild : Bool) :
    (node list left right).subtreeAt [isRightChild] =
      some ((node list left right).getChild isRightChild) := by
  cases isRightChild <;> simp [subtreeAt, getChild]

/-- Replacing a child of the node at a path is one `setChild` on that node. -/
theorem graft_eq_setChild (new : Tree) (isRightChild : Bool) :
    ∀ (t : Tree) (path : List Bool) (list : LinkedList) (left right : Tree),
      t.subtreeAt path = some (node list left right) →
        t.graft (path ++ [isRightChild]) new =
          t.graft path ((node list left right).setChild isRightChild new) := by
  intro t
  induction t with
  | null =>
    intro path list left right h
    have := (subtreeAt_null path _ h).2
    simp at this
  | node x l r ihl ihr =>
    intro path list left right h
    cases path with
    | nil =>
      simp only [subtreeAt, Option.some.injEq, node.injEq] at h
      obtain ⟨rfl, rfl, rfl⟩ := h
      cases isRightChild <;> simp [graft, setChild]
    | cons b path =>
      cases b <;> simp only [subtreeAt, if_true, if_false, Bool.false_eq_true] at h
      · simp [graft, ihl path list left right h]
      · simp [graft, ihr path list left right h]

/-- The list at the root of a subtree is one of the lists of the tree. -/
theorem mem_lists_of_subtreeAt :
    ∀ (t : Tree) (path : List Bool) (x : LinkedList) (l r : Tree),
      t.subtreeAt path = some (node x l r) → x ∈ t.lists := by
  intro t
  induction t with
  | null =>
    intro path x l r h
    have := (subtreeAt_null path _ h).2
    simp at this
  | node list left right ihl ihr =>
    intro path x l r h
    cases path with
    | nil =>
      simp only [subtreeAt, Option.some.injEq, node.injEq] at h
      simp [lists, h.1]
    | cons b path =>
      cases b <;> simp only [subtreeAt, if_true, if_false, Bool.false_eq_true] at h
      · simp [lists, ihl path x l r h]
      · simp [lists, ihr path x l r h]

end Tree

namespace BinaryTree

theorem keyCompare_congr (i j m : LinkedList) (hsize : j.size = i.size)
    (hsum : j.sum = i.sum) : keyCompare j m = keyCompare i m := by
  simp [keyCompare, hsize, hsum]

theorem keyCompare_ne_lt_of_eq (i m : LinkedList) (hsize : m.size = i.size)
    (hsum : m.sum = i.sum) : keyCompare i m ≠ .lt := by
  simp [keyCompare, hsize, hsum]

/-- A list with positive `size` is in the tree after its insertion. -/
theorem addAt_contains (list : LinkedList) (hpos : 0 < list.size) :
    ∀ (t t' : Tree), addAt t list = .ok t' → list ∈ t'.lists := by
  intro t
  induction t with
  | null =>
    intro t' h
    simp only [addAt, Except.ok.injEq] at h
    subst h
    simp [Tree.lists]
  | node currentNode left right ihl ihr =>
    intro t' h
    rcases addAt_node_cases currentNode list left right with
      ⟨-, hl⟩ | ⟨-, -, hr⟩ | ⟨hs, -, hle, -⟩ | ⟨-, -, -, -, he⟩
    · rw [hl] at h
      obtain ⟨l', hl', rfl⟩ := map_eq_ok _ _ _ h
      simp [Tree.lists, ihl l' hl']
    · rw [hr] at h
      obtain ⟨r', hr', rfl⟩ := map_eq_ok _ _ _ h
      simp [Tree.lists, ihr r' hr']
    · omega
    · rw [he] at h
      simp at h

/-- In a tree ordered by count and total, a list with the count and total of
the list held at some node is carried by the descent to that node and on into
its right child. -/
theorem addAt_turns_right_at_equal (list : LinkedList) :
    ∀ (path : List Bool) (t : Tree) (a : LinkedList) (l r : Tree),
      t.Ordered keyCompare → (∀ x ∈ t.lists, 0 < x.size → x.chain ≠ []) →
      t.subtreeAt path = some (.node a l r) →
      a.size = list.size → a.sum = list.sum → 0 < a.size →
        ∃ r', addAt r list = .ok r' ∧ list ∈ r'.lists ∧
          addAt t list = .ok (t.graft path (.node a l r')) := by
  intro path
  induction path with
  | nil =>
    intro t a l r _ hwf hsub hsize hsum hpos
    simp only [Tree.subtreeAt, Option.some.injEq] at hsub
    subst hsub
    obtain ⟨r', hr'⟩ := addAt_returns list r (fun x hx => hwf x (by simp [Tree.lists, hx]))
    refine ⟨r', hr', addAt_contains list (by omega) r r' hr', ?_⟩
    rcases addAt_node_cases a list l r with
      ⟨hlt, -⟩ | ⟨-, -, hr⟩ | ⟨-, -, hle, -⟩ | ⟨-, -, hp, hnil, -⟩
    · exact absurd hlt (keyCompare_ne_lt_of_eq list a hsize hsum)
    · rw [hr, hr']
      rfl
    · omega
    · exact absurd hnil (hwf a (by simp [Tree.lists]) hp)
  | cons b path ih =>
    intro t a l r ho hwf hsub hsize hsum hpos
    cases t with
    | null => simp [Tree.subtreeAt] at hsub
    | node m l0 r0 =>
      obtain ⟨hol, hor, hl0, hr0⟩ := ho
      have hkey : keyCompare list m = keyCompare a m :=
        keyCompare_congr a list m hsize.symm hsum.symm
      cases b with
      | true =>
        simp only [Tree.subtreeAt, if_true] at hsub
        have hmem : a ∈ r0.lists := Tree.mem_lists_of_subtreeAt r0 path a l r hsub
        obtain ⟨r', hr', hin, hadd⟩ := ih r0 a l r hr0
          (fun x hx => hwf x (by simp [Tree.lists, hx])) hsub hsize hsum hpos
        refine ⟨r', hr', hin, ?_⟩
        rcases addAt_node_cases m list l0 r0 with
          ⟨hlt, -⟩ | ⟨-, -, hr⟩ | ⟨hs, -, hle, -⟩ | ⟨-, -, hp, hnil, -⟩
        · rw [hkey] at hlt
          exact absurd hlt (hor a hmem)
        · rw [hr, hadd]
          simp [Except.map, Tree.graft]
        · omega
        · exact absurd hnil (hwf m (by simp [Tree.lists]) hp)
      | false =>
        simp only [Tree.subtreeAt, if_false, Bool.false_eq_true] at hsub
        have hmem : a ∈ l0.lists := Tree.mem_lists_of_subtreeAt l0 path a l r hsub
        obtain ⟨r', hr', hin, hadd⟩ := ih l0 a l r hl0
          (fun x hx => hwf x (by simp [Tree.lists, hx])) hsub hsize hsum hpos
        refine ⟨r', hr', hin, ?_⟩
        have hlt : keyCompare list m = .lt := by
          rw [hkey]
          exact hol a hmem
        rcases addAt_node_cases m list l0 r0 with
          ⟨-, hl⟩ | ⟨hge, -, -⟩ | ⟨hs, hsm, -, -⟩ | ⟨hs, hsm, -, -, -⟩
        · rw [hl, hadd]
          simp [Except.map, Tree.graft]
        · exact absurd hlt hge
        · exact absurd hlt (keyCompare_ne_lt_of_eq list m hs hsm)
        · exact absurd hlt (keyCompare_ne_lt_of_eq list m hs hsm)

/-- Two lists with the same positive count and the same total are installed
at the same absent child of the same tree. -/
theorem addAt_same_position (i j : LinkedList) (hpos : 0 < i.size)
    (hsize : j.size = i.size) (hsum : j.sum = i.sum) :
    ∀ t : Tree, (∀ x ∈ t.lists, 0 < x.size → x.chain ≠ []) →
      ∃ path, t.subtreeAt path = some .null ∧
        addAt t i = .ok (t.graft path (.node i .null .null)) ∧
        addAt t j = .ok (t.graft path (.node j .null .null)) := by
  intro t
  induction t with
  | null => intro _; exact ⟨[], rfl, rfl, rfl⟩
  | node m l r ihl ihr =>
    intro hwf
    have hkey : keyCompare j m = keyCompare i m := keyCompare_congr i j m hsize hsum
    rcases addAt_node_cases m i l r with
      ⟨hlt, hl⟩ | ⟨hge, -, hr⟩ | ⟨hs, -, hle, -⟩ | ⟨-, -, hp, hnil, -⟩
    · obtain ⟨path, hsub, hi, hj⟩ := ihl (fun x hx => hwf x (by simp [Tree.lists, hx]))
      refine ⟨false :: path, by simpa [Tree.subtreeAt] using hsub, ?_, ?_⟩
      · rw [hl, hi]
        simp [Except.map, Tree.graft]
      · rcases addAt_node_cases m j l r with
          ⟨-, hl'⟩ | ⟨hge', -, -⟩ | ⟨hs, hsm, -, -⟩ | ⟨hs, hsm, -, -, -⟩
        · rw [hl', hj]
          simp [Except.map, Tree.graft]
        · rw [hkey] at hge'
          exact absurd hlt hge'
        · exact absurd (hkey ▸ hlt) (keyCompare_ne_lt_of_eq j m hs hsm)
        · exact absurd (hkey ▸ hlt) (keyCompare_ne_lt_of_eq j m hs hsm)
    · obtain ⟨path, hsub, hi, hj⟩ := ihr (fun x hx => hwf x (by simp [Tree.lists, hx]))
      refine ⟨true :: path, by simpa [Tree.subtreeAt] using hsub, ?_, ?_⟩
      · rw [hr, hi]
        simp [Except.map, Tree.graft]
      · rcases addAt_node_cases m j l r with
          ⟨hlt', -⟩ | ⟨-, -, hr'⟩ | ⟨hs, -, hle, -⟩ | ⟨-, -, hp, hnil, -⟩
        · rw [hkey] at hlt'
          exact absurd hlt' hge
        · rw [hr', hj]
          simp [Except.map, Tree.graft]
        · omega
        · exact absurd hnil (hwf m (by simp [Tree.lists]) hp)
    · omega
    · exact absurd hnil (hwf m (by simp [Tree.lists]) hp)

theorem add_eq_addAt (tree : BinaryTree) (list : LinkedList) (h : tree.root ≠ .null) :
    tree.add list = (addAt tree.root list).map (fun r => { root := r }) := by
  obtain ⟨root⟩ := tree
  cases root with
  | null => exact absurd rfl h
  | node x l r => rfl

/-- With lists that hold at least one element, `add` returns, keeps the order
by count and total, and the tree holds the old lists and the new one. -/
theorem add_ordered (tree : BinaryTree) (list : LinkedList)
    (ho : tree.root.Ordered keyCompare)
    (hwf : ∀ x ∈ tree.root.lists, 0 < x.size ∧ x.chain ≠ []) :
    ∃ tree', tree.add list = .ok tree' ∧ tree'.root.Ordered keyCompare ∧
      tree'.root.lists.Perm (list :: tree.root.lists) := by
  by_cases hroot : tree.root = .null
  · refine ⟨⟨.node list .null .null⟩, ?_, by simp [Tree.Ordered, Tree.lists], ?_⟩
    · simp [add, hroot]
    · simp [hroot, Tree.lists]
  · obtain ⟨t', ht', -, hperm⟩ := addAt_adds_one_node list tree.root hwf
    refine ⟨⟨t'⟩, ?_, addAt_ordered list tree.root t' ht' ho, hperm⟩
    rw [add_eq_addAt tree list hroot, ht']
    rfl

theorem addAll_ordered :
    ∀ (lists : List LinkedList) (tree : BinaryTree),
      tree.root.Ordered keyCompare →
      (∀ x ∈ tree.root.lists, 0 < x.size ∧ x.chain ≠ []) →
      (∀ x ∈ lists, 0 < x.size ∧ x.chain ≠ []) →
        ∃ tree', tree.addAll lists = .ok tree' ∧ tree'.root.Ordered keyCompare ∧
          tree'.root.lists.Perm (lists ++ tree.root.lists) := by
  intro lists
  induction lists with
  | nil => intro tree ho _ _; exact ⟨tree, rfl, ho, by simp⟩
  | cons list rest ih =>
    intro tree ho hwf hall
    obtain ⟨t1, h1, ho1, hp1⟩ := add_ordered tree list ho hwf
    have hwf1 : ∀ x ∈ t1.root.lists, 0 < x.size ∧ x.chain ≠ [] := by
      intro x hx
      rcases List.mem_cons.1 (hp1.subset hx) with rfl | hx
      · exact hall x (by simp)
      · exact hwf x hx
    obtain ⟨t2, h2, ho2, hp2⟩ := ih t1 ho1 hwf1 (fun x hx => hall x (by simp [hx]))
    refine ⟨t2, by simp [addAll, h1, h2], ho2, hp2.trans ?_⟩
    have : (rest ++ t1.root.lists).Perm (rest ++ list :: tree.root.lists) :=
      List.Perm.append_left rest hp1
    refine this.trans ?_
    simp only [List.cons_append]
    exact List.perm_middle

end BinaryTree

/-! ## Where `LinkedList::add` puts the new node -/

namespace LinkedList

/-- The pair the `while` loop stops at is the first adjacent pair, counted
from the head, that encloses the value, and the new node is linked between the
two. -/
theorem spliceLoop_first_pair (value : Int) :
    ∀ (rest : List Int) (lastNode : Int) (k : Nat) (newRest : List Int),
      spliceLoop value lastNode rest = some (k, newRest) →
        (∃ prev next, (lastNode :: rest)[k]? = some prev ∧
          (lastNode :: rest)[k + 1]? = some next ∧ prev ≤ value ∧ value ≤ next) ∧
        (∀ j a b, j < k → (lastNode :: rest)[j]? = some a →
          (lastNode :: rest)[j + 1]? = some b → ¬ (a ≤ value ∧ value ≤ b)) ∧
        lastNode :: newRest =
          (lastNode :: rest).take (k + 1) ++ value :: (lastNode :: rest).drop (k + 1) := by
  intro rest
  induction rest with
  | nil => intro lastNode k newRest h; simp [spliceLoop] at h
  | cons cur rest ih =>
    intro lastNode k newRest h
    unfold spliceLoop at h
    split at h
    · rename_i hc
      simp only [Option.some.injEq, Prod.mk.injEq] at h
      obtain ⟨rfl, rfl⟩ := h
      refine ⟨⟨lastNode, cur, by simp, by simp, hc.1, hc.2⟩, ?_, by simp⟩
      intro j a b hj
      omega
    · rename_i hc
      cases hrec : spliceLoop value cur rest with
      | none => simp [hrec] at h
      | some p =>
        obtain ⟨k', newRest'⟩ := p
        simp only [hrec, Option.some.injEq, Prod.mk.injEq] at h
        obtain ⟨rfl, rfl⟩ := h
        obtain ⟨⟨prev, next, h1, h2, h3, h4⟩, hmin, heq⟩ := ih cur k' newRest' hrec
        refine ⟨⟨prev, next, by simpa using h1, by simpa using h2, h3, h4⟩, ?_, ?_⟩
        · intro j a b hj ha hb
          cases j with
          | zero =>
            simp only [List.getElem?_cons_zero, Option.some.injEq, Nat.zero_add,
              List.getElem?_cons_succ] at ha hb
            subst ha hb
            exact hc
          | succ j =>
            simp only [List.getElem?_cons_succ] at ha hb
            exact hmin j a b (by omega) ha (by simpa using hb)
        · simp only [List.take_succ_cons, List.drop_succ_cons, List.cons_append] at heq ⊢
          rw [heq]

/-- Reading through the `NULL` head is the only way `add` reports `nullHead`,
and it happens exactly when no node is linked from `head`. -/
theorem add_nullHead_iff (l : LinkedList) (value : Int) :
    l.add value = .error .nullHead ↔ l.chain = [] := by
  obtain ⟨size, sum, chain, tail⟩ := l
  cases chain with
  | nil => simp [add]
  | cons hd rest =>
    simp only [add]
    constructor
    · intro h
      split at h
      · simp at h
      · split at h
        · simp at h
        · split at h
          · simp at h
          · split at h
            · simp at h
            · split at h <;> simp at h
    · intro h
      simp at h

end LinkedList

/-! ## Failure and placement in `LinkedList::add` -/

/-- C15, the only failure of `add`: `add` reads through the `NULL` head exactly
when no node is linked from `head`, as after `LinkedList()`; on a list created
by `LinkedList(int)` and extended by `add` calls only, every further `add`
returns normally, for every value. -/
theorem add_fails_exactly_on_empty_list :
    (∀ (l : LinkedList) (value : Int), l.add value = .error .nullHead ↔ l.chain = []) ∧
    (∀ value : Int, LinkedList.new.add value = .error .nullHead) ∧
    (∀ (seed : Int) (values : List Int) (value : Int),
      ∃ l l', (LinkedList.newWith seed).addAll values = .ok l ∧ l.add value = .ok l') := by
  refine ⟨LinkedList.add_nullHead_iff, fun value => rfl, ?_⟩
  intro seed values value
  obtain ⟨l, hl, hb, -⟩ :=
    LinkedList.addAll_built values (LinkedList.newWith seed) (LinkedList.built_newWith seed)
  obtain ⟨l', hl', -, -⟩ := LinkedList.add_built l value hb
  exact ⟨l, l', hl, hl'⟩

/-- C16, where the new element lands: on a list with first value `first`, last
value `last` and `tail` on its last node (no order on the chain is needed),
`add` returns, `tail` is on the last node afterwards, and the new chain is
`value` in front of the old one if `value ≤ first`; otherwise the old one with
`value` appended if `value ≥ last`; otherwise the old one with `value` linked
between the first adjacent pair `prev`, `next` from the head with
`prev ≤ value ≤ next`, which exists. -/
theorem add_lands (l : LinkedList) (value first last : Int)
    (hfirst : l.chain.head? = some first) (hlast : l.chain.getLast? = some last)
    (ht : l.tail = some (l.chain.length - 1)) :
    ∃ l', l.add value = .ok l' ∧ l'.tail = some (l'.chain.length - 1) ∧
      (value ≤ first → l'.chain = value :: l.chain) ∧
      (¬ value ≤ first → value ≥ last → l'.chain = l.chain ++ [value]) ∧
      (¬ value ≤ first → ¬ value ≥ last →
        ∃ i prev next, l.chain[i]? = some prev ∧ l.chain[i + 1]? = some next ∧
          prev ≤ value ∧ value ≤ next ∧
          (∀ j a b, j < i → l.chain[j]? = some a → l.chain[j + 1]? = some b →
            ¬ (a ≤ value ∧ value ≤ b)) ∧
          l'.chain = l.chain.take (i + 1) ++ value :: l.chain.drop (i + 1)) := by
  obtain ⟨size, sum, chain, tail⟩ := l
  simp only at hfirst hlast ht
  cases chain with
  | nil => simp at hfirst
  | cons hd rest =>
    simp only [List.head?_cons, Option.some.injEq] at hfirst
    subst hfirst
    simp only [List.length_cons, Nat.add_sub_cancel] at ht
    subst ht
    have htv : (hd :: rest)[rest.length]? = some last := by
      rw [← hlast, List.getLast?_eq_getElem?]
      simp
    simp only [LinkedList.add]
    by_cases h1 : value ≤ hd
    · rw [if_pos h1]
      exact ⟨_, rfl, by simp, fun _ => rfl, fun h => absurd h1 h, fun h => absurd h1 h⟩
    · rw [if_neg h1]
      simp only [htv]
      have htake : (hd :: rest).take (rest.length + 1) = hd :: rest :=
        List.take_of_length_le (by simp)
      by_cases h2 : value ≥ last
      · rw [if_pos h2]
        exact ⟨_, rfl, by simp [htake], fun h => absurd h h1, fun _ _ => by simp [htake],
          fun _ h => absurd h2 h⟩
      · rw [if_neg h2]
        obtain ⟨k, newRest, hk⟩ :=
          LinkedList.spliceLoop_finds value rest hd last htv (not_le.1 h1) (not_le.1 h2)
        obtain ⟨hperm, hklt⟩ := LinkedList.spliceLoop_perm value rest hd k newRest hk
        obtain ⟨⟨prev, next, hp, hn, hle1, hle2⟩, hmin, heq⟩ :=
          LinkedList.spliceLoop_first_pair value rest hd k newRest hk
        have hlen := hperm.length_eq
        simp only [List.length_cons] at hlen
        simp only [hk]
        refine ⟨_, rfl, ?_, fun h => absurd h h1, fun _ h => absurd h h2, fun _ _ => ?_⟩
        · simp only [List.length_cons, Nat.add_sub_cancel, hlen]
          rw [if_pos (by omega)]
        · exact ⟨k, prev, next, hp, hn, hle1, hle2, hmin, heq⟩

/-- The list `[1, 4, 9]`: `5` is linked between `4` and `9`, the first pair that
encloses it, and `tail` stays on the last node. -/
theorem add_lands_witness :
    (LinkedList.mk 3 14 [1, 4, 9] (some 2)).chain.head? = some 1 ∧
    (LinkedList.mk 3 14 [1, 4, 9] (some 2)).chain.getLast? = some 9 ∧
    (LinkedList.mk 3 14 [1, 4, 9] (some 2)).tail = some ([1, 4, 9].length - 1) ∧
    (LinkedList.mk 3 14 [1, 4, 9] (some 2)).add 5 = .ok ⟨4, 19, [1, 4, 5, 9], some 3⟩ ∧
    ∃ l', (LinkedList.mk 3 14 [1, 4, 9] (some 2)).add 5 = .ok l' ∧
      l'.tail = some (l'.chain.length - 1) :=
  ⟨rfl, rfl, rfl, by decide, by
    obtain ⟨l', h, ht, -⟩ := add_lands ⟨3, 14, [1, 4, 9], some 2⟩ 5 1 9 rfl rfl rfl
    exact ⟨l', h, ht⟩⟩

/-! ## Shape of the tree after `BinaryTree::add` -/

/-- C11, evaluated where it fails: insert `[7]`, then a default-constructed
list `A`, then a default-constructed list `B` identical to `A`. `A` becomes the
left child of `[7]`; `B` follows the same path, reaches the node holding `A`
and is linked nowhere: the right child of that node stays absent and the tree
keeps two nodes. -/
theorem later_empty_duplicate_not_below_earlier :
    BinaryTree.addAll BinaryTree.new
        [LinkedList.newWith 7, LinkedList.new, LinkedList.new] =
      .ok ⟨.node (LinkedList.newWith 7) (.node LinkedList.new .null .null) .null⟩ ∧
    (Tree.node (LinkedList.newWith 7) (.node LinkedList.new .null .null) .null).subtreeAt
        [false] = some (.node LinkedList.new .null .null) ∧
    (Tree.node (LinkedList.newWith 7) (.node LinkedList.new .null .null) .null).subtreeAt
        [false, true] = some .null ∧
    (Tree.node (LinkedList.newWith 7) (.node LinkedList.new .null .null) .null).numNodes =
      2 := by
  decide

/-- C12, insertion only adds a leaf: on a non-empty tree, whenever `add`
returns, every node is still at its path from the root with its contents (in
particular the root keeps its list), and the new tree is the old one, or the
old one with one absent child replaced by the leaf holding the inserted list;
and `add` does return when no node has a positive `size` and no head. -/
theorem add_keeps_every_node (tree : BinaryTree) (list : LinkedList)
    (hroot : tree.root ≠ .null) :
    (∀ tree', tree.add list = .ok tree' →
      (∀ path x l r, tree.root.subtreeAt path = some (.node x l r) →
        ∃ l' r', tree'.root.subtreeAt path = some (.node x l' r')) ∧
      (∀ x l r, tree.root = .node x l r → ∃ l' r', tree'.root = .node x l' r') ∧
      (tree'.root = tree.root ∨
        ∃ path, tree.root.subtreeAt path = some .null ∧
          tree'.root = tree.root.graft path (.node list .null .null))) ∧
    ((∀ x ∈ tree.root.lists, 0 < x.size → x.chain ≠ []) →
      ∃ tree', tree.add list = .ok tree') := by
  refine ⟨?_, ?_⟩
  · intro tree' h
    rw [BinaryTree.add_eq_addAt tree list hroot] at h
    obtain ⟨t', ht', rfl⟩ := BinaryTree.map_eq_ok _ _ _ h
    have hframe : ∀ path x l r, tree.root.subtreeAt path = some (.node x l r) →
        ∃ l' r', t'.subtreeAt path = some (.node x l' r') := by
      intro path x l r hsub
      rcases BinaryTree.addAt_graft list tree.root t' ht' with rfl | ⟨at_, hnull, rfl⟩
      · exact ⟨l, r, hsub⟩
      · exact Tree.graft_frame _ tree.root at_ path x l r hnull hsub
    refine ⟨hframe, ?_, BinaryTree.addAt_graft list tree.root t' ht'⟩
    intro x l r hx
    obtain ⟨l', r', h'⟩ := hframe [] x l r (by simp [Tree.subtreeAt, hx])
    exact ⟨l', r', by simpa [Tree.subtreeAt] using h'⟩
  · intro hwf
    obtain ⟨t', ht'⟩ := BinaryTree.addAt_returns list tree.root hwf
    exact ⟨⟨t'⟩, by rw [BinaryTree.add_eq_addAt tree list hroot, ht']; rfl⟩

/-- The tree with root `[1, 2]` and right child `[5, 6, 7]`: adding `[3]` fills
the absent left child of the root, and the two old nodes stay where they
were. -/
theorem add_keeps_every_node_witness :
    (BinaryTree.mk (.node ⟨2, 3, [1, 2], some 1⟩ .null
      (.node ⟨3, 18, [5, 6, 7], some 2⟩ .null .null))).root ≠ .null ∧
    (BinaryTree.mk (.node ⟨2, 3, [1, 2], some 1⟩ .null
      (.node ⟨3, 18, [5, 6, 7], some 2⟩ .null .null))).add (LinkedList.newWith 3) =
      .ok ⟨.node ⟨2, 3, [1, 2], some 1⟩ (.node (LinkedList.newWith 3) .null .null)
        (.node ⟨3, 18, [5, 6, 7], some 2⟩ .null .null)⟩ ∧
    ∃ tree', (BinaryTree.mk (.node ⟨2, 3, [1, 2], some 1⟩ .null
      (.node ⟨3, 18, [5, 6, 7], some 2⟩ .null .null))).add (LinkedList.newWith 3) =
        .ok tree' :=
  ⟨by decide, by decide,
    (add_keeps_every_node _ (LinkedList.newWith 3) (by decide)).2 (by decide)⟩

/-- C17, order by count and total: for every sequence of lists that each hold
at least one element, inserted into an empty tree, every insertion returns and
the tree holds exactly the inserted lists with, at every node `N`, the lists of
the left subtree below `N` in the lexicographic order of (count, total) and the
lists of the right subtree not below `N`. A prefix of such a sequence is such
a sequence, so this holds after each insertion. -/
theorem key_order_after_every_add (lists : List LinkedList)
    (h : ∀ x ∈ lists, 0 < x.size ∧ x.chain ≠ []) :
    (∃ tree, BinaryTree.new.addAll lists = .ok tree ∧ tree.root.Ordered keyCompare ∧
      tree.root.lists.Perm lists) ∧
    (∀ a b : LinkedList,
      keyCompare a b = .lt ↔ a.size < b.size ∨ (a.size = b.size ∧ a.sum < b.sum)) := by
  refine ⟨?_, BinaryTree.keyCompare_lt_iff⟩
  obtain ⟨tree, h1, h2, h3⟩ := BinaryTree.addAll_ordered lists BinaryTree.new
    (by simp [BinaryTree.new, Tree.Ordered]) (by simp [BinaryTree.new, Tree.lists]) h
  exact ⟨tree, h1, h2, by simpa [BinaryTree.new, Tree.lists] using h3⟩

/-- The lists `[2, 3]`, `[1, 4]`, `[9]`, `[1, 1]` inserted in this order: `[1, 4]`
goes right of `[2, 3]` (same count and total), `[9]` and `[1, 1]` go left. -/
theorem key_order_after_every_add_witness :
    (∀ x ∈ [LinkedList.mk 2 5 [2, 3] (some 1), ⟨2, 5, [1, 4], some 1⟩,
        ⟨1, 9, [9], some 0⟩, ⟨2, 2, [1, 1], some 1⟩], 0 < x.size ∧ x.chain ≠ []) ∧
    ∃ tree, BinaryTree.new.addAll [LinkedList.mk 2 5 [2, 3] (some 1), ⟨2, 5, [1, 4], some 1⟩,
        ⟨1, 9, [9], some 0⟩, ⟨2, 2, [1, 1], some 1⟩] = .ok tree ∧
      tree.root.Ordered keyCompare ∧
      tree.root.lists.Perm [LinkedList.mk 2 5 [2, 3] (some 1), ⟨2, 5, [1, 4], some 1⟩,
        ⟨1, 9, [9], some 0⟩, ⟨2, 2, [1, 1], some 1⟩] :=
  ⟨by decide, (key_order_after_every_add _ (by decide)).1⟩

/-- C18, placement ignores the elements: at a node `N` that has a head and the
count (at least 1) and total of the inserted list `I`, the third branch of `add`
issues exactly one recursive call, for the right child, whatever the elements;
and a list `J` with the count and total of `I` is installed at the same absent
child of the same tree as `I`. -/
theorem placement_ignores_elements (i : LinkedList) (hpos : 1 ≤ i.getSize) :
    (∀ (n : LinkedList) (l r : Tree),
      n.getSize = i.getSize → n.getSum = i.getSum → n.chain ≠ [] →
        BinaryTree.tieCalls n = .ok [true] ∧
        BinaryTree.addAt (.node n l r) i =
          (BinaryTree.addAt r i).map (fun r' => .node n l r')) ∧
    (∀ (j : LinkedList) (t : Tree),
      j.getSize = i.getSize → j.getSum = i.getSum →
      (∀ x ∈ t.lists, 0 < x.size → x.chain ≠ []) →
        ∃ path, t.subtreeAt path = some .null ∧
          BinaryTree.addAt t i = .ok (t.graft path (.node i .null .null)) ∧
          BinaryTree.addAt t j = .ok (t.graft path (.node j .null .null))) := by
  have hpos' : 0 < i.size := by
    simp only [LinkedList.getSize] at hpos
    omega
  refine ⟨?_, ?_⟩
  · intro n l r hsize hsum hne
    simp only [LinkedList.getSize, LinkedList.getSum] at hsize hsum
    exact ⟨BinaryTree.tieCalls_of_size_pos n (by omega) hne,
      BinaryTree.addAt_tie_right n i l r hsize hsum (by omega) hne⟩
  · intro j t hsize hsum hwf
    exact BinaryTree.addAt_same_position i j hpos' hsize hsum t hwf

/-- At the node `[2, 3]`, the lists `[1, 4]` and `[0, 5]` (count 2, total 5,
like the node) are both installed as its right child. -/
theorem placement_ignores_elements_witness :
    1 ≤ LinkedList.getSize ⟨2, 5, [1, 4], some 1⟩ ∧
    BinaryTree.tieCalls ⟨2, 5, [2, 3], some 1⟩ = .ok [true] ∧
    BinaryTree.addAt (.node ⟨2, 5, [2, 3], some 1⟩ .null .null) ⟨2, 5, [1, 4], some 1⟩ =
      .ok (.node ⟨2, 5, [2, 3], some 1⟩ .null (.node ⟨2, 5, [1, 4], some 1⟩ .null .null)) ∧
    BinaryTree.addAt (.node ⟨2, 5, [2, 3], some 1⟩ .null .null) ⟨2, 5, [0, 5], some 1⟩ =
      .ok (.node ⟨2, 5, [2, 3], some 1⟩ .null (.node ⟨2, 5, [0, 5], some 1⟩ .null .null)) ∧
    ∃ path, (Tree.node ⟨2, 5, [2, 3], some 1⟩ .null .null).subtreeAt path = some .null ∧
      BinaryTree.addAt (.node ⟨2, 5, [2, 3], some 1⟩ .null .null) ⟨2, 5, [1, 4], some 1⟩ =
        .ok ((Tree.node ⟨2, 5, [2, 3], some 1⟩ .null .null).graft path
          (.node ⟨2, 5, [1, 4], some 1⟩ .null .null)) ∧
      BinaryTree.addAt (.node ⟨2, 5, [2, 3], some 1⟩ .null .null) ⟨2, 5, [0, 5], some 1⟩ =
        .ok ((Tree.node ⟨2, 5, [2, 3], some 1⟩ .null .null).graft path
          (.node ⟨2, 5, [0, 5], some 1⟩ .null .null)) :=
  ⟨by decide, by decide, by decide, by decide,
    (placement_ignores_elements ⟨2, 5, [1, 4], some 1⟩ (by decide)).2
      ⟨2, 5, [0, 5], some 1⟩ (.node ⟨2, 5, [2, 3], some 1⟩ .null .null)
      (by decide) (by decide) (by decide)⟩

/-- C19, an empty list meeting an empty list: at a node `N` with count 0 and
total 0, for an inserted list `I` with count 0 and total 0, the loop runs zero
times, the third branch issues no recursive call, and `add` returns the node
with both children as they were: `I` is linked nowhere. -/
theorem empty_list_at_empty_list_dropped (n i : LinkedList) (l r : Tree)
    (hn : n.getSize = 0) (hns : n.getSum = 0) (hi : i.getSize = 0) (his : i.getSum = 0) :
    n.getSize.toNat = 0 ∧ BinaryTree.tieCalls n = .ok [] ∧
    BinaryTree.addAt (.node n l r) i = .ok (.node n l r) ∧
    (Tree.node n l r).numNodes = 1 + l.numNodes + r.numNodes := by
  simp only [LinkedList.getSize, LinkedList.getSum] at hn hns hi his
  refine ⟨by simp [LinkedList.getSize, hn],
    BinaryTree.tieCalls_of_size_nonpos n (by omega),
    BinaryTree.addAt_tie_dropped n i l r (by omega) (by omega) (by omega), rfl⟩

/-- Two default-constructed lists inserted into an empty tree give a tree with
one node. -/
theorem empty_list_at_empty_list_dropped_witness :
    LinkedList.new.getSize = 0 ∧ LinkedList.new.getSum = 0 ∧
    BinaryTree.addAt (.node LinkedList.new .null .null) LinkedList.new =
      .ok (.node LinkedList.new .null .null) ∧
    (∃ tree, BinaryTree.new.addAll [LinkedList.new, LinkedList.new] = .ok tree ∧
      tree.root.numNodes = 1) :=
  ⟨rfl, rfl,
    (empty_list_at_empty_list_dropped LinkedList.new LinkedList.new .null .null
      rfl rfl rfl rfl).2.2.1,
    ⟨⟨.node LinkedList.new .null .null⟩, by decide, rfl⟩⟩

/-! ## The printed walk -/

namespace BinaryTree

/-- The node lines of the output, against the nodes in preorder numbered from
`depth`. -/
theorem entries_printTreeContents :
    ∀ (t : Tree) (level spaces : Int) (depth : Nat),
      (printTreeContents t level spaces).filterMap Line.entry? =
        (t.preorder depth).map (fun p => (level + ((p.1 : Int) - depth), p.2.chain)) := by
  intro t
  induction t with
  | null => intro level spaces depth; simp [printTreeContents, Tree.preorder, Line.entry?]
  | node list left right ihl ihr =>
    intro level spaces depth
    have hfun : (fun p : Nat × LinkedList =>
        (level + 1 + ((p.1 : Int) - ((depth + 1 : Nat) : Int)), p.2.chain)) =
        (fun p : Nat × LinkedList => (level + ((p.1 : Int) - depth), p.2.chain)) := by
      funext p
      congr 1
      push_cast
      ring
    simp only [printTreeContents, Tree.preorder, List.filterMap_cons, Line.entry?,
      List.filterMap_append, List.map_cons, List.map_append,
      ihl (level + 1) (spaces + 2) (depth + 1), ihr (level + 1) (spaces + 2) (depth + 1),
      hfun, LinkedList.printListContents]
    simp

theorem preorder_length : ∀ (t : Tree) (depth : Nat), (t.preorder depth).length = t.numNodes := by
  intro t
  induction t with
  | null => intro depth; rfl
  | node list left right ihl ihr =>
    intro depth
    simp only [Tree.preorder, Tree.numNodes, List.length_cons, List.length_append,
      ihl (depth + 1), ihr (depth + 1)]
    omega

theorem preorder_lists : ∀ (t : Tree) (depth : Nat),
    (t.preorder depth).map (fun p => p.2) = t.lists := by
  intro t
  induction t with
  | null => intro depth; rfl
  | node list left right ihl ihr =>
    intro depth
    simp [Tree.preorder, Tree.lists, ihl (depth + 1), ihr (depth + 1)]

theorem noChild_printTreeContents :
    ∀ (t : Tree) (level spaces : Int),
      (printTreeContents t level spaces).countP Line.isNoChild = t.numNodes + 1 := by
  intro t
  induction t with
  | null => intro level spaces; simp [printTreeContents, Tree.numNodes, Line.isNoChild]
  | node list left right ihl ihr =>
    intro level spaces
    simp only [printTreeContents, Tree.numNodes, List.countP_cons, List.countP_append,
      Line.isNoChild, ihl (level + 1) (spaces + 2), ihr (level + 1) (spaces + 2)]
    simp
    omega

end BinaryTree

/-- C13, preorder: at a node the output is the line of the node (its level and
its values head to tail), the caption of the left child, the complete output
for the left child at `level + 1`, the caption of the right child, the complete
output for the right child at `level + 1`; without the two captions the walk is
the node, then the walk of the left child, then the walk of the right child;
and an absent child gives exactly one `No child` line, at the spacing of
`level + 1`. -/
theorem printTreeContents_preorder (list : LinkedList) (left right : Tree)
    (level spaces : Int) :
    BinaryTree.printTreeContents (.node list left right) level spaces =
      [Line.entry spaces.toNat level list.chain, Line.leftChildren spaces.toNat] ++
        BinaryTree.printTreeContents left (level + 1) (spaces + 2) ++
        [Line.rightChildren spaces.toNat] ++
        BinaryTree.printTreeContents right (level + 1) (spaces + 2) ∧
    BinaryTree.traverse (.node list left right) level spaces =
      Line.entry spaces.toNat level list.chain ::
        (BinaryTree.traverse left (level + 1) (spaces + 2) ++
          BinaryTree.traverse right (level + 1) (spaces + 2)) ∧
    BinaryTree.printTreeContents .null (level + 1) (spaces + 2) =
      [Line.noChild (spaces + 2).toNat] ∧
    BinaryTree.traverse .null (level + 1) (spaces + 2) = [Line.noChild (spaces + 2).toNat] := by
  refine ⟨?_, ?_, rfl, rfl⟩
  · simp [BinaryTree.printTreeContents, LinkedList.printListContents]
  · simp [BinaryTree.traverse, BinaryTree.printTreeContents, LinkedList.printListContents,
      Line.isCaption, List.filter_cons]

/-- C14, empty tree: for an absent root the output is exactly one `No child`
line; it has no node line. -/
theorem printTreeContents_null (level spaces : Int) :
    BinaryTree.printTreeContents .null level spaces = [Line.noChild spaces.toNat] ∧
    (BinaryTree.printTreeContents .null level spaces).filterMap Line.entry? = [] ∧
    (BinaryTree.printTreeContents .null level spaces).countP Line.isNoChild = 1 ∧
    BinaryTree.printTreeContents BinaryTree.new.root 1 0 = [Line.noChild 0] := by
  refine ⟨rfl, rfl, rfl, rfl⟩

/-- C20, size of the output: for a tree with `n` nodes the output has exactly
`n` node lines, one per node in the order node, left, right, each with the
values of its node and with the level `level` plus the distance of the node from
the root, and exactly `n + 1` `No child` lines. -/
theorem printTreeContents_sizes (t : Tree) (level spaces : Int) :
    (BinaryTree.printTreeContents t level spaces).filterMap Line.entry? =
      (t.preorder 0).map (fun p => (level + (p.1 : Int), p.2.chain)) ∧
    (t.preorder 0).map (fun p => p.2) = t.lists ∧
    ((BinaryTree.printTreeContents t level spaces).filterMap Line.entry?).length =
      t.numNodes ∧
    (BinaryTree.printTreeContents t level spaces).countP Line.isNoChild = t.numNodes + 1 := by
  have h := BinaryTree.entries_printTreeContents t level spaces 0
  simp only [Nat.cast_zero, sub_zero] at h
  refine ⟨h, BinaryTree.preorder_lists t 0, ?_,
    BinaryTree.noChild_printTreeContents t level spaces⟩
  rw [h, List.length_map, BinaryTree.preorder_length]

end ListTrees
